import Mathlib

/-!
Verification development for the sparse-matrix ALU repository
(file `src/sparse_matrix_op.py`).

The Python module stores a sparse integer matrix as a `dict` mapping
`(row, col)` keys to non-zero integer values, loads matrices from a
plain-text format, performs addition, subtraction and multiplication,
and serializes matrices back to text.

Embedding conventions:
- a Python `dict` is modelled as an association list kept in insertion
  order (`dictInsert` overwrites in place, `dictRemove` deletes);
- Python strings are modelled as `List Char`; file contents are lists
  of lines (each a `List Char`), newline handling is folded into the
  whitespace stripping the loader performs anyway;
- Python exceptions are modelled by `Except String`, carrying the
  message of the `raise` statement in the source;
- Python `int` is `Int`; `str.isdigit` / `str.isspace` are modelled on
  the ASCII characters that actually occur in the matrix text format;
- `int(s)` is modelled by `pyInt?` for the inputs reachable in this
  program: an optional sign followed by decimal digits (CPython extras
  such as underscore separators are not reachable through the matrix
  format and are not modelled).
-/

/-! ### Python dict model -/

/-- A key of the element dictionary: a `(row, col)` pair of Python ints. -/
abbrev Key := Int × Int

/-- `d.get(k, 0)`: value stored at `k`, or `0` when absent. -/
def dictGet (d : List (Key × Int)) (k : Key) : Int :=
  match d.find? (fun p => decide (p.1 = k)) with
  | some p => p.2
  | none => 0

/-- `k in d`: Python key-membership test. -/
def dictContains (d : List (Key × Int)) (k : Key) : Bool :=
  d.any (fun p => decide (p.1 = k))

/-- `d[k] = v`: overwrite in place when the key exists, append otherwise
(Python dicts preserve insertion order). -/
def dictInsert (d : List (Key × Int)) (k : Key) (v : Int) : List (Key × Int) :=
  if dictContains d k then
    d.map (fun p => if p.1 = k then (k, v) else p)
  else
    d ++ [(k, v)]

/-- `del d[k]`. -/
def dictRemove (d : List (Key × Int)) (k : Key) : List (Key × Int) :=
  d.filter (fun p => decide (p.1 ≠ k))

/-- The list of keys of the dictionary. -/
def dictKeys (d : List (Key × Int)) : List Key :=
  d.map Prod.fst

/-! ### Python string helpers -/

/-- ASCII model of Python `str.isspace` for a single character. -/
def pyIsSpace (c : Char) : Bool :=
  c == ' ' || c == '\t' || c == '\n' || c == '\r' || c == '\x0b' || c == '\x0c'

/-- `_strip_whitespace(line)`: remove every whitespace character. -/
def stripWS (l : List Char) : List Char :=
  l.filter (fun c => !pyIsSpace c)

/-- Python `str.strip()`: drop leading and trailing whitespace. -/
def pyStrip (l : List Char) : List Char :=
  ((l.dropWhile pyIsSpace).reverse.dropWhile pyIsSpace).reverse

/-- Python `str.startswith(pre)`. -/
def pyStartsWith (l pre : List Char) : Bool :=
  match pre, l with
  | [], _ => true
  | _ :: _, [] => false
  | p :: ps, c :: cs => p == c && pyStartsWith cs ps

/-- `_is_valid_integer(s)`, i.e. `s.lstrip('-').isdigit()`: Python
`lstrip('-')` removes EVERY leading dash, and `isdigit` requires a
non-empty all-digit string. -/
def pyIsValidInteger (l : List Char) : Bool :=
  !(l.dropWhile (fun c => c == '-')).isEmpty &&
    (l.dropWhile (fun c => c == '-')).all Char.isDigit

/-- Numeric value of a digit string (most significant digit first). -/
def digitsToNat (l : List Char) : Nat :=
  l.foldl (fun a c => a * 10 + (c.toNat - 48)) 0

/-- `int(s)` on a bare digit string: requires non-empty and all digits. -/
def digitsVal? (l : List Char) : Option Nat :=
  if !l.isEmpty && l.all Char.isDigit then some (digitsToNat l) else none

/-- Model of CPython `int(s)` on the strings reachable in this program:
an optional single `+` or `-` sign followed by one or more decimal
digits; anything else raises `ValueError`. -/
def pyInt? (l : List Char) : Option Int :=
  if l.head? = some '-' then
    Option.map (fun v : Nat => -(v : Int)) (digitsVal? (l.drop 1))
  else if l.head? = some '+' then
    Option.map (fun v : Nat => (v : Int)) (digitsVal? (l.drop 1))
  else
    Option.map (fun v : Nat => (v : Int)) (digitsVal? l)

/-- Decimal digits of a natural number, most significant first
(the digits of Python `str(n)` for `n ≥ 0`). -/
def natDigits (n : Nat) : List Char :=
  if h : n < 10 then [Char.ofNat (48 + n)]
  else natDigits (n / 10) ++ [Char.ofNat (48 + n % 10)]
termination_by n
decreasing_by exact Nat.div_lt_self (by omega) (by omega)

/-- Python `str(n)` for an int `n` (as a character list). -/
def intToStr (n : Int) : List Char :=
  if n < 0 then '-' :: natDigits (-n).toNat else natDigits n.toNat

/-- Python `str(n)` as a Lean `String`, for building error messages. -/
def intStr (n : Int) : String :=
  String.mk (intToStr n)

/-- Python `line.split(',')`. -/
def splitOnComma : List Char → List (List Char)
  | [] => [[]]
  | c :: rest =>
    if c = ',' then [] :: splitOnComma rest
    else
      match splitOnComma rest with
      | [] => [[c]]
      | g :: gs => (c :: g) :: gs

/-! ### The SparseMatrix data type and its operations -/

/-- The `SparseMatrix` object: declared dimensions plus the dictionary
of (intended non-zero) elements, in insertion order. -/
structure SparseMatrix where
  rows : Int
  cols : Int
  elements : List (Key × Int)
deriving DecidableEq, Repr

/-- A Python `for`-loop over a list whose body may raise: the first
error aborts the loop. -/
def foldE (f : SparseMatrix → α → Except String SparseMatrix) :
    List α → SparseMatrix → Except String SparseMatrix
  | [], m => .ok m
  | x :: xs, m =>
    match f m x with
    | .ok m' => foldE f xs m'
    | .error e => .error e

/-- `set_element`: bounds-checked write; a zero value deletes the entry. -/
def set_element (m : SparseMatrix) (row col value : Int) : Except String SparseMatrix :=
  if 0 ≤ row ∧ row < m.rows ∧ 0 ≤ col ∧ col < m.cols then
    if value ≠ 0 then
      .ok ⟨m.rows, m.cols, dictInsert m.elements (row, col) value⟩
    else if dictContains m.elements (row, col) then
      .ok ⟨m.rows, m.cols, dictRemove m.elements (row, col)⟩
    else
      .ok m
  else
    .error ("Invalid index (" ++ intStr row ++ ", " ++ intStr col ++
      ") for matrix size " ++ intStr m.rows ++ "x" ++ intStr m.cols)

/-- `get_element`: `self.elements.get((row, col), 0)`; never fails. -/
def get_element (m : SparseMatrix) (row col : Int) : Int :=
  dictGet m.elements (row, col)

/-- `_parse_entry(line)`: one text line to a `(row, col, value)` triple. -/
def parse_entry (line : List Char) : Except String (Int × Int × Int) :=
  if line.head? = some '(' ∧ line.getLast? = some ')' then
    match splitOnComma ((line.drop 1).dropLast) with
    | [r0, c0, v0] =>
      let r := pyStrip r0
      let c := pyStrip c0
      let v := pyStrip v0
      if '.' ∈ r ∨ '.' ∈ c ∨ '.' ∈ v then
        .error "Matrix entries must be integers only"
      else if !(pyIsValidInteger r && pyIsValidInteger c && pyIsValidInteger v) then
        .error "Invalid integer values in entry"
      else
        match pyInt? r with
        | none => .error ("invalid literal for int() with base 10: " ++ String.mk r)
        | some ri =>
          match pyInt? c with
          | none => .error ("invalid literal for int() with base 10: " ++ String.mk c)
          | some ci =>
            match pyInt? v with
            | none => .error ("invalid literal for int() with base 10: " ++ String.mk v)
            | some vi => .ok (ri, ci, vi)
    | _ => .error "Each entry must have exactly three parts: row, col, value"
  else
    .error "Each entry must be enclosed in parentheses."

/-- The `rows=` header tag. -/
def rowsTag : List Char := ['r', 'o', 'w', 's', '=']

/-- The `cols=` header tag. -/
def colsTag : List Char := ['c', 'o', 'l', 's', '=']

/-- Loop body of `_load_from_file`: parse one entry line and insert it. -/
def loadStep (m : SparseMatrix) (line : List Char) : Except String SparseMatrix :=
  match parse_entry line with
  | .ok rcv => set_element m rcv.1 rcv.2.1 rcv.2.2
  | .error e => .error e

/-- Body of `_load_from_file` on the whitespace-stripped non-blank
lines, before the outer `except` wrapper: check the two dimension
headers, then parse and insert every entry line. -/
def loadCore (lines : List (List Char)) : Except String SparseMatrix :=
  match lines with
  | l0 :: l1 :: rest =>
    if pyStartsWith l0 rowsTag && pyStartsWith l1 colsTag then
      match pyInt? (l0.drop 5) with
      | none => .error ("invalid literal for int() with base 10: " ++ String.mk (l0.drop 5))
      | some r =>
        match pyInt? (l1.drop 5) with
        | none => .error ("invalid literal for int() with base 10: " ++ String.mk (l1.drop 5))
        | some c => foldE loadStep rest ⟨r, c, []⟩
    else .error "First two lines must define matrix dimensions"
  | _ => .error "File must contain at least two lines for rows and cols"

/-- `_load_from_file(filepath)`: read the lines, strip all whitespace,
drop blank lines, run the body; every failure is re-raised as a single
`ValueError` wrapping the file path and the underlying cause. -/
def load (filepath : String) (fileLines : List (List Char)) : Except String SparseMatrix :=
  match loadCore ((fileLines.map stripWS).filter (fun l => !l.isEmpty)) with
  | .ok m => .ok m
  | .error e => .error ("Error loading matrix from file " ++ filepath ++ ": " ++ e)

/-- `__add__`. -/
def add (a b : SparseMatrix) : Except String SparseMatrix :=
  if a.rows ≠ b.rows ∨ a.cols ≠ b.cols then
    .error "Matrix dimensions do not match for addition"
  else
    match foldE (fun res p => set_element res p.1.1 p.1.2 (p.2 + get_element b p.1.1 p.1.2))
        a.elements ⟨a.rows, a.cols, []⟩ with
    | .ok m1 =>
      foldE (fun res p =>
          if dictContains a.elements p.1 then .ok res
          else set_element res p.1.1 p.1.2 p.2)
        b.elements m1
    | .error e => .error e

/-- `__sub__`. -/
def sub (a b : SparseMatrix) : Except String SparseMatrix :=
  if a.rows ≠ b.rows ∨ a.cols ≠ b.cols then
    .error "Matrix dimensions do not match for subtraction"
  else
    match foldE (fun res p => set_element res p.1.1 p.1.2 (p.2 - get_element b p.1.1 p.1.2))
        a.elements ⟨a.rows, a.cols, []⟩ with
    | .ok m1 =>
      foldE (fun res p =>
          if dictContains a.elements p.1 then .ok res
          else set_element res p.1.1 p.1.2 (-p.2))
        b.elements m1
    | .error e => .error e

/-- Python `range(n)` as a list of ints (empty when `n ≤ 0`). -/
def pyRange (n : Int) : List Int :=
  List.map (fun k : Nat => (k : Int)) (List.range n.toNat)

/-- `__matmul__`: for every stored entry of `a`, scan the full column
range of `b` and accumulate into the result. -/
def matmul (a b : SparseMatrix) : Except String SparseMatrix :=
  if a.cols ≠ b.rows then
    .error "Matrix dimensions do not match for multiplication"
  else
    foldE (fun res p =>
        foldE (fun res2 c2 =>
            let v2 := get_element b p.1.2 c2
            if v2 ≠ 0 then
              set_element res2 p.1.1 c2 (get_element res2 p.1.1 c2 + p.2 * v2)
            else .ok res2)
          (pyRange b.cols) res)
      a.elements ⟨a.rows, b.cols, []⟩

/-- Order in which Python `sorted(self.elements.items())` arranges the
items: lexicographic on the `((row, col), value)` tuple. -/
def entryLe (p q : Key × Int) : Prop :=
  p.1.1 < q.1.1 ∨ (p.1.1 = q.1.1 ∧ (p.1.2 < q.1.2 ∨ (p.1.2 = q.1.2 ∧ p.2 ≤ q.2)))

instance : DecidableRel entryLe := fun p q => by
  unfold entryLe; infer_instance

instance : IsTotal (Key × Int) entryLe :=
  ⟨by intro p q; unfold entryLe; omega⟩

instance : IsTrans (Key × Int) entryLe :=
  ⟨by intro p q s; unfold entryLe; omega⟩

/-- `sorted(items)` (the sort key is a total order, and the element
dictionary has no duplicate keys, so the sorted list is unique and any
sorting algorithm models Python `sorted`). -/
def sortedEntries (l : List (Key × Int)) : List (Key × Int) :=
  l.insertionSort entryLe

/-- One output line `(<row>, <col>, <value>)` of `save_to_file`. -/
def formatEntry (p : Key × Int) : List Char :=
  ['('] ++ intToStr p.1.1 ++ [',', ' '] ++ intToStr p.1.2 ++ [',', ' '] ++
    intToStr p.2 ++ [')']

/-- `save_to_file`: the lines written to the output file, in order. -/
def save_lines (m : SparseMatrix) : List (List Char) :=
  (rowsTag ++ intToStr m.rows) :: (colsTag ++ intToStr m.cols) ::
    (sortedEntries m.elements).map formatEntry

/-! ### Specification-side definitions -/

/-- Invariant I1: every stored value is non-zero. -/
def InvI1 (m : SparseMatrix) : Prop :=
  ∀ p ∈ m.elements, p.2 ≠ 0

/-- Invariant I2: every stored key is inside the declared dimensions. -/
def InvI2 (m : SparseMatrix) : Prop :=
  ∀ p ∈ m.elements, 0 ≤ p.1.1 ∧ p.1.1 < m.rows ∧ 0 ≤ p.1.2 ∧ p.1.2 < m.cols

/-- Well-formedness of the dictionary model itself: distinct keys
(automatic for a Python dict). -/
def NodupKeys (m : SparseMatrix) : Prop :=
  (dictKeys m.elements).Nodup

/-- Full well-formedness: a real matrix value as produced by the public
operations. -/
def WF (m : SparseMatrix) : Prop :=
  NodupKeys m ∧ InvI1 m ∧ InvI2 m

/-- The claimed grammar of a signed integer literal: an optional single
leading dash followed by one or more decimal digits (spec wording). -/
def specValidInt (l : List Char) : Bool :=
  if l.head? = some '-' then
    !(l.drop 1).isEmpty && (l.drop 1).all Char.isDigit
  else
    !l.isEmpty && l.all Char.isDigit

/-- The integer denoted by a literal of the grammar `specValidInt`. -/
def specIntVal (l : List Char) : Int :=
  if l.head? = some '-' then -(digitsToNat (l.drop 1) : Int)
  else (digitsToNat l : Int)

/-- Entry of the standard matrix product of `a` and `b` at `(r, c)`:
the sum over the inner dimension `a.cols`. -/
def matProdEntry (a b : SparseMatrix) (r c : Int) : Int :=
  Finset.sum (Finset.range a.cols.toNat)
    (fun k => get_element a r (k : Int) * get_element b (k : Int) c)

instance (m : SparseMatrix) : Decidable (InvI1 m) := by
  unfold InvI1; exact List.decidableBAll _ _

instance (m : SparseMatrix) : Decidable (InvI2 m) := by
  unfold InvI2; exact List.decidableBAll _ _

instance (m : SparseMatrix) : Decidable (NodupKeys m) := by
  unfold NodupKeys; infer_instance

instance (m : SparseMatrix) : Decidable (WF m) := by
  unfold WF; infer_instance

/-! ### Dictionary lemmas -/

theorem dictGet_nil (k : Key) : dictGet [] k = 0 := rfl

theorem dictGet_cons (p : Key × Int) (d : List (Key × Int)) (k : Key) :
    dictGet (p :: d) k = if p.1 = k then p.2 else dictGet d k := by
  by_cases h : p.1 = k
  · simp [dictGet, List.find?_cons, h]
  · simp [dictGet, List.find?_cons, h]

theorem mem_dictKeys_cons {p : Key × Int} {d : List (Key × Int)} {k : Key} :
    k ∈ dictKeys (p :: d) ↔ k = p.1 ∨ k ∈ dictKeys d := by
  simp [dictKeys]

theorem dictContains_iff (d : List (Key × Int)) (k : Key) :
    dictContains d k = true ↔ k ∈ dictKeys d := by
  simp [dictContains, dictKeys, List.any_eq_true, List.mem_map]

theorem dictGet_of_not_mem {d : List (Key × Int)} {k : Key}
    (h : k ∉ dictKeys d) : dictGet d k = 0 := by
  induction d with
  | nil => rfl
  | cons p d ih =>
    rw [dictGet_cons]
    rw [mem_dictKeys_cons] at h
    push_neg at h
    rw [if_neg (fun he => h.1 he.symm)]
    exact ih h.2

theorem mem_of_dictGet_ne {d : List (Key × Int)} {k : Key}
    (h : dictGet d k ≠ 0) : (k, dictGet d k) ∈ d := by
  induction d with
  | nil => simp [dictGet_nil] at h
  | cons p d ih =>
    rw [dictGet_cons] at h ⊢
    by_cases hp : p.1 = k
    · rw [if_pos hp] at h ⊢
      have : (k, p.2) = p := by rw [← hp]
      rw [this]
      exact List.mem_cons_self p d
    · rw [if_neg hp] at h ⊢
      exact List.mem_cons_of_mem _ (ih h)

theorem dictGet_eq_of_mem {d : List (Key × Int)} {k : Key} {v : Int}
    (hnd : (dictKeys d).Nodup) (h : (k, v) ∈ d) : dictGet d k = v := by
  induction d with
  | nil => simp at h
  | cons p d ih =>
    have hnd' : (p.1 :: dictKeys d).Nodup := hnd
    rw [List.nodup_cons] at hnd'
    have hnd := hnd'
    rcases List.mem_cons.mp h with h | h
    · rw [← h, dictGet_cons, if_pos rfl]
    · have hk : p.1 ≠ k := by
        intro he
        exact hnd.1 (he ▸ List.mem_map_of_mem Prod.fst h)
      rw [dictGet_cons, if_neg hk]
      exact ih hnd.2 h

theorem dictGet_append (d1 d2 : List (Key × Int)) (k : Key) :
    dictGet (d1 ++ d2) k =
      if k ∈ dictKeys d1 then dictGet d1 k else dictGet d2 k := by
  induction d1 with
  | nil => simp [dictKeys, dictGet_nil]
  | cons p d ih =>
    rw [List.cons_append, dictGet_cons, dictGet_cons, ih]
    by_cases hp : p.1 = k
    · rw [if_pos hp, if_pos hp, if_pos (mem_dictKeys_cons.mpr (Or.inl hp.symm))]
    · rw [if_neg hp, if_neg hp]
      by_cases hm : k ∈ dictKeys d
      · rw [if_pos hm, if_pos (mem_dictKeys_cons.mpr (Or.inr hm))]
      · have hnm : k ∉ dictKeys (p :: d) := by
          rw [mem_dictKeys_cons]
          push_neg
          exact ⟨fun he => hp he.symm, hm⟩
        rw [if_neg hm, if_neg hnm]

theorem dictGet_replace_self (d : List (Key × Int)) (k : Key) (v : Int)
    (h : k ∈ dictKeys d) :
    dictGet (d.map (fun p => if p.1 = k then (k, v) else p)) k = v := by
  induction d with
  | nil => simp [dictKeys] at h
  | cons p d ih =>
    rw [List.map_cons, dictGet_cons]
    by_cases hp : p.1 = k
    · rw [if_pos hp]
      rw [if_pos rfl]
    · rw [if_neg hp, if_neg hp]
      rcases mem_dictKeys_cons.mp h with he | hm
      · exact absurd he.symm hp
      · exact ih hm

theorem dictGet_replace_ne (d : List (Key × Int)) (k : Key) (v : Int) {k' : Key}
    (hne : k' ≠ k) :
    dictGet (d.map (fun p => if p.1 = k then (k, v) else p)) k' = dictGet d k' := by
  induction d with
  | nil => rfl
  | cons p d ih =>
    rw [List.map_cons, dictGet_cons, dictGet_cons]
    by_cases hp : p.1 = k
    · rw [if_pos hp]
      have h1 : (k, v).1 ≠ k' := fun he => hne he.symm
      have h2 : p.1 ≠ k' := by rw [hp]; exact fun he => hne he.symm
      rw [if_neg h1, if_neg h2]
      exact ih
    · rw [if_neg hp]
      by_cases hpk : p.1 = k'
      · rw [if_pos hpk, if_pos hpk]
      · rw [if_neg hpk, if_neg hpk]
        exact ih

theorem dictGet_insert_self (d : List (Key × Int)) (k : Key) (v : Int) :
    dictGet (dictInsert d k v) k = v := by
  unfold dictInsert
  by_cases hc : dictContains d k
  · rw [if_pos hc]
    exact dictGet_replace_self d k v ((dictContains_iff d k).mp hc)
  · rw [if_neg hc, dictGet_append,
      if_neg (fun hm => hc ((dictContains_iff d k).mpr hm)),
      dictGet_cons, if_pos rfl]

theorem dictGet_insert_ne (d : List (Key × Int)) {k k' : Key} (v : Int)
    (hne : k' ≠ k) : dictGet (dictInsert d k v) k' = dictGet d k' := by
  unfold dictInsert
  by_cases hc : dictContains d k
  · rw [if_pos hc]
    exact dictGet_replace_ne d k v hne
  · rw [if_neg hc, dictGet_append]
    by_cases hm : k' ∈ dictKeys d
    · rw [if_pos hm]
    · rw [if_neg hm, dictGet_of_not_mem hm, dictGet_cons,
        if_neg (fun he : k = k' => hne he.symm), dictGet_nil]

theorem dictGet_remove_ne (d : List (Key × Int)) {k k' : Key}
    (hne : k' ≠ k) : dictGet (dictRemove d k) k' = dictGet d k' := by
  induction d with
  | nil => rfl
  | cons p d ih =>
    unfold dictRemove at ih ⊢
    rw [List.filter_cons]
    by_cases hp : p.1 = k
    · rw [if_neg (by simp [hp])]
      rw [dictGet_cons, if_neg (by rw [hp]; exact fun he => hne he.symm)]
      exact ih
    · rw [if_pos (by simp [hp]), dictGet_cons, dictGet_cons]
      by_cases hpk : p.1 = k'
      · rw [if_pos hpk, if_pos hpk]
      · rw [if_neg hpk, if_neg hpk]
        exact ih

theorem mem_keys_remove {d : List (Key × Int)} {k k' : Key} :
    k' ∈ dictKeys (dictRemove d k) ↔ k' ≠ k ∧ k' ∈ dictKeys d := by
  unfold dictRemove dictKeys
  constructor
  · intro h
    rcases List.mem_map.mp h with ⟨p, hp, he⟩
    rcases List.mem_filter.mp hp with ⟨hmem, hne⟩
    simp only [decide_eq_true_eq] at hne
    exact ⟨he ▸ hne, he ▸ List.mem_map_of_mem Prod.fst hmem⟩
  · rintro ⟨hne, hm⟩
    rcases List.mem_map.mp hm with ⟨p, hp, he⟩
    exact List.mem_map.mpr
      ⟨p, List.mem_filter.mpr ⟨hp, by simp only [decide_eq_true_eq]; exact he ▸ hne⟩, he⟩

theorem dictGet_remove_self (d : List (Key × Int)) (k : Key) :
    dictGet (dictRemove d k) k = 0 := by
  apply dictGet_of_not_mem
  intro h
  exact (mem_keys_remove.mp h).1 rfl

theorem mem_keys_insert {d : List (Key × Int)} {k k' : Key} {v : Int} :
    k' ∈ dictKeys (dictInsert d k v) ↔ k' = k ∨ k' ∈ dictKeys d := by
  unfold dictInsert
  by_cases hc : dictContains d k
  · rw [if_pos hc]
    simp only [dictKeys, List.map_map, List.mem_map, Function.comp_apply]
    constructor
    · rintro ⟨p, hp, he⟩
      by_cases hpk : p.1 = k
      · rw [if_pos hpk] at he
        exact Or.inl he.symm
      · rw [if_neg hpk] at he
        exact Or.inr ⟨p, hp, he⟩
    · rintro (rfl | hm)
      · rcases List.mem_map.mp ((dictContains_iff d k').mp hc) with ⟨p, hp, he⟩
        exact ⟨p, hp, by rw [if_pos he]⟩
      · rcases hm with ⟨p, hp, he⟩
        by_cases hpk : p.1 = k
        · exact ⟨p, hp, by rw [if_pos hpk]; exact hpk.symm.trans he⟩
        · exact ⟨p, hp, by rw [if_neg hpk]; exact he⟩
  · rw [if_neg hc]
    unfold dictKeys
    rw [List.map_append, List.mem_append]
    simp only [List.map_cons, List.map_nil, List.mem_singleton]
    constructor
    · rintro (h | h)
      · exact Or.inr h
      · exact Or.inl h
    · rintro (h | h)
      · exact Or.inr h
      · exact Or.inl h

theorem nodup_keys_insert {d : List (Key × Int)} {k : Key} {v : Int}
    (h : (dictKeys d).Nodup) : (dictKeys (dictInsert d k v)).Nodup := by
  unfold dictInsert
  by_cases hc : dictContains d k
  · rw [if_pos hc]
    unfold dictKeys at h ⊢
    rw [List.map_map]
    have hf : (Prod.fst ∘ fun p : Key × Int => if p.1 = k then (k, v) else p) =
        Prod.fst := by
      funext p
      by_cases hp : p.1 = k <;> simp [hp]
    rw [hf]
    exact h
  · rw [if_neg hc]
    unfold dictKeys at h ⊢
    rw [List.map_append]
    refine List.Nodup.append h (by simp) ?_
    intro x hx hx2
    simp only [List.map_cons, List.map_nil, List.mem_singleton] at hx2
    subst hx2
    exact hc ((dictContains_iff d x).mpr hx)

theorem nodup_keys_remove {d : List (Key × Int)} {k : Key}
    (h : (dictKeys d).Nodup) : (dictKeys (dictRemove d k)).Nodup := by
  unfold dictRemove dictKeys at *
  exact List.Nodup.sublist (List.Sublist.map Prod.fst (List.filter_sublist d)) h

theorem mem_insert_elim {d : List (Key × Int)} {k : Key} {v : Int} {p : Key × Int}
    (h : p ∈ dictInsert d k v) : p = (k, v) ∨ p ∈ d := by
  unfold dictInsert at h
  split at h
  · rcases List.mem_map.mp h with ⟨q, hq, he⟩
    by_cases hqk : q.1 = k
    · rw [if_pos hqk] at he
      exact Or.inl he.symm
    · rw [if_neg hqk] at he
      exact Or.inr (he ▸ hq)
  · rcases List.mem_append.mp h with h | h
    · exact Or.inr h
    · exact Or.inl (by simpa using h)

theorem mem_remove_elim {d : List (Key × Int)} {k : Key} {p : Key × Int}
    (h : p ∈ dictRemove d k) : p ∈ d :=
  (List.mem_filter.mp h).1

/-! ### set and get lemmas -/

/-- The bounds condition checked by `set_element`. -/
def inBounds (m : SparseMatrix) (r c : Int) : Prop :=
  0 ≤ r ∧ r < m.rows ∧ 0 ≤ c ∧ c < m.cols

instance (m : SparseMatrix) (r c : Int) : Decidable (inBounds m r c) := by
  unfold inBounds; infer_instance

theorem dictGet_mem_of_mem_keys {d : List (Key × Int)} {k : Key}
    (h : k ∈ dictKeys d) : (k, dictGet d k) ∈ d := by
  induction d with
  | nil => simp [dictKeys] at h
  | cons p d ih =>
    rw [dictGet_cons]
    by_cases hp : p.1 = k
    · rw [if_pos hp]
      have : (k, p.2) = p := by rw [← hp]
      rw [this]
      exact List.mem_cons_self p d
    · rw [if_neg hp]
      rcases mem_dictKeys_cons.mp h with he | hm
      · exact absurd he.symm hp
      · exact List.mem_cons_of_mem _ (ih hm)

theorem get_eq_zero_iff {m : SparseMatrix} (h1 : InvI1 m) (r c : Int) :
    get_element m r c = 0 ↔ (r, c) ∉ dictKeys m.elements := by
  constructor
  · intro h0 hmem
    have := dictGet_mem_of_mem_keys hmem
    have hne := h1 _ this
    exact hne (by simpa [get_element] using h0)
  · intro h
    exact dictGet_of_not_mem h

theorem get_eq_zero_of_out {m : SparseMatrix} (h2 : InvI2 m) {r c : Int}
    (h : ¬ inBounds m r c) : get_element m r c = 0 := by
  apply dictGet_of_not_mem
  intro hmem
  rcases List.mem_map.mp hmem with ⟨p, hp, he⟩
  have hb := h2 p hp
  rw [he] at hb
  exact h ⟨hb.1, hb.2.1, hb.2.2.1, hb.2.2.2⟩

theorem set_element_spec (m : SparseMatrix) (r c v : Int) (h : inBounds m r c) :
    ∃ m', set_element m r c v = .ok m' ∧ m'.rows = m.rows ∧ m'.cols = m.cols ∧
      get_element m' r c = v ∧
      (∀ r' c', (r', c') ≠ (r, c) → get_element m' r' c' = get_element m r' c') := by
  have h' : 0 ≤ r ∧ r < m.rows ∧ 0 ≤ c ∧ c < m.cols := h
  unfold set_element
  rw [if_pos h']
  by_cases hv : v ≠ 0
  · rw [if_pos hv]
    refine ⟨_, rfl, rfl, rfl, ?_, ?_⟩
    · exact dictGet_insert_self m.elements (r, c) v
    · intro r' c' hne
      exact dictGet_insert_ne m.elements v hne
  · rw [if_neg hv]
    push_neg at hv
    subst hv
    by_cases hc : dictContains m.elements (r, c)
    · rw [if_pos hc]
      refine ⟨_, rfl, rfl, rfl, ?_, ?_⟩
      · exact dictGet_remove_self m.elements (r, c)
      · intro r' c' hne
        exact dictGet_remove_ne m.elements hne
    · rw [if_neg hc]
      refine ⟨m, rfl, rfl, rfl, ?_, fun _ _ _ => rfl⟩
      apply dictGet_of_not_mem
      exact fun hm => hc ((dictContains_iff _ _).mpr hm)

theorem set_element_ok_bounds {m m' : SparseMatrix} {r c v : Int}
    (h : set_element m r c v = .ok m') : inBounds m r c := by
  unfold set_element at h
  by_cases hb : 0 ≤ r ∧ r < m.rows ∧ 0 ≤ c ∧ c < m.cols
  · exact hb
  · rw [if_neg hb] at h
    exact absurd h (by simp)

theorem set_element_WF {m m' : SparseMatrix} {r c v : Int}
    (hwf : WF m) (h : set_element m r c v = .ok m') : WF m' := by
  have hb := set_element_ok_bounds h
  have hb' : 0 ≤ r ∧ r < m.rows ∧ 0 ≤ c ∧ c < m.cols := hb
  unfold set_element at h
  rw [if_pos hb'] at h
  obtain ⟨hnd, h1, h2⟩ := hwf
  by_cases hv : v ≠ 0
  · rw [if_pos hv] at h
    injection h with h
    subst h
    refine ⟨nodup_keys_insert hnd, ?_, ?_⟩
    · intro p hp
      rcases mem_insert_elim hp with rfl | hp
      · exact hv
      · exact h1 p hp
    · intro p hp
      rcases mem_insert_elim hp with rfl | hp
      · exact ⟨hb.1, hb.2.1, hb.2.2.1, hb.2.2.2⟩
      · exact h2 p hp
  · rw [if_neg hv] at h
    by_cases hc : dictContains m.elements (r, c)
    · rw [if_pos hc] at h
      injection h with h
      subst h
      refine ⟨nodup_keys_remove hnd, ?_, ?_⟩
      · exact fun p hp => h1 p (mem_remove_elim hp)
      · exact fun p hp => h2 p (mem_remove_elim hp)
    · rw [if_neg hc] at h
      injection h with h
      subst h
      exact ⟨hnd, h1, h2⟩

theorem set_element_dims {m m' : SparseMatrix} {r c v : Int}
    (h : set_element m r c v = .ok m') : m'.rows = m.rows ∧ m'.cols = m.cols := by
  have hb := set_element_ok_bounds h
  rcases set_element_spec m r c v hb with ⟨m2, he, hr, hc, _⟩
  rw [h] at he
  injection he with he
  subst he
  exact ⟨hr, hc⟩

/-! ### Generic loop lemmas -/

theorem foldE_nil {α : Type} (f : SparseMatrix → α → Except String SparseMatrix)
    (m : SparseMatrix) : foldE f [] m = .ok m := rfl

theorem foldE_cons {α : Type} (f : SparseMatrix → α → Except String SparseMatrix)
    (x : α) (xs : List α) (m : SparseMatrix) :
    foldE f (x :: xs) m =
      match f m x with
      | .ok m' => foldE f xs m'
      | .error e => .error e := rfl

theorem foldE_preserve {α : Type} {P : SparseMatrix → Prop}
    {f : SparseMatrix → α → Except String SparseMatrix}
    (hf : ∀ m x m', P m → f m x = .ok m' → P m') :
    ∀ {l : List α} {m0 m : SparseMatrix},
      P m0 → foldE f l m0 = .ok m → P m := by
  intro l
  induction l with
  | nil =>
    intro m0 m hp h
    unfold foldE at h
    injection h with h
    exact h ▸ hp
  | cons x xs ih =>
    intro m0 m hp h
    unfold foldE at h
    cases hx : f m0 x with
    | ok m1 =>
      rw [hx] at h
      exact ih (hf m0 x m1 hp hx) h
    | error e =>
      rw [hx] at h
      exact absurd h (by simp)

theorem foldE_ok {α : Type} {P : SparseMatrix → Prop}
    {f : SparseMatrix → α → Except String SparseMatrix} :
    ∀ (l : List α) (m0 : SparseMatrix), P m0 →
      (∀ m x, x ∈ l → P m → ∃ m', f m x = .ok m' ∧ P m') →
      ∃ m, foldE f l m0 = .ok m ∧ P m := by
  intro l
  induction l with
  | nil => exact fun m0 hp _ => ⟨m0, rfl, hp⟩
  | cons x xs ih =>
    intro m0 hp hf
    rcases hf m0 x (List.mem_cons_self x xs) hp with ⟨m1, hx, hp1⟩
    rcases ih m1 hp1 (fun m y hy hpm => hf m y (List.mem_cons_of_mem x hy) hpm)
      with ⟨m, hfold, hpm⟩
    exact ⟨m, by unfold foldE; rw [hx]; exact hfold, hpm⟩

theorem foldE_error {α : Type} {f : SparseMatrix → α → Except String SparseMatrix}
    {x : α} (hfail : ∀ m, ∃ e, f m x = .error e) :
    ∀ (l : List α), x ∈ l → ∀ (m0 : SparseMatrix),
      ∃ e, foldE f l m0 = .error e := by
  intro l
  induction l with
  | nil => intro h; simp at h
  | cons y ys ih =>
    intro hx m0
    rcases List.mem_cons.mp hx with rfl | hx
    · rcases hfail m0 with ⟨e, he⟩
      exact ⟨e, by unfold foldE; rw [he]⟩
    · cases hy : f m0 y with
      | ok m1 =>
        rcases ih hx m1 with ⟨e, he⟩
        exact ⟨e, by unfold foldE; rw [hy]; exact he⟩
      | error e =>
        exact ⟨e, by unfold foldE; rw [hy]⟩

theorem foldE_skip {f : SparseMatrix → Key × Int → Except String SparseMatrix}
    (q : Key × Int → Bool) :
    ∀ (l : List (Key × Int)) (m0 : SparseMatrix),
      foldE (fun res x => if q x then .ok res else f res x) l m0 =
        foldE f (l.filter (fun x => !q x)) m0 := by
  intro l
  induction l with
  | nil => intro m0; rfl
  | cons x xs ih =>
    intro m0
    rw [List.filter_cons]
    by_cases hq : q x
    · rw [if_neg (by simp [hq]), foldE_cons, if_pos hq]
      exact ih m0
    · rw [if_pos (by simp [hq]), foldE_cons, foldE_cons, if_neg hq]
      cases f m0 x with
      | ok m1 => exact ih m1
      | error e => rfl

theorem foldE_set_fresh (g : Key × Int → Int) :
    ∀ (l : List (Key × Int)) (m0 : SparseMatrix),
      (dictKeys l).Nodup →
      (∀ p ∈ l, inBounds m0 p.1.1 p.1.2) →
      ∃ m, foldE (fun res p => set_element res p.1.1 p.1.2 (g p)) l m0 = .ok m ∧
        m.rows = m0.rows ∧ m.cols = m0.cols ∧
        (∀ p ∈ l, get_element m p.1.1 p.1.2 = g p) ∧
        (∀ r c, (r, c) ∉ dictKeys l → get_element m r c = get_element m0 r c) := by
  intro l
  induction l with
  | nil =>
    intro m0 _ _
    exact ⟨m0, rfl, rfl, rfl, by simp, fun r c _ => rfl⟩
  | cons p l ih =>
    intro m0 hnd hb
    have hndc : (p.1 :: dictKeys l).Nodup := hnd
    rw [List.nodup_cons] at hndc
    rcases set_element_spec m0 p.1.1 p.1.2 (g p) (hb p (List.mem_cons_self p l))
      with ⟨m1, hset, hr1, hc1, hget1, hget1'⟩
    have hb1 : ∀ q ∈ l, inBounds m1 q.1.1 q.1.2 := by
      intro q hq
      have := hb q (List.mem_cons_of_mem p hq)
      unfold inBounds at this ⊢
      rw [hr1, hc1]
      exact this
    rcases ih m1 hndc.2 hb1 with ⟨m, hfold, hr, hc, hmem, hout⟩
    refine ⟨m, ?_, hr.trans hr1, hc.trans hc1, ?_, ?_⟩
    · unfold foldE
      rw [hset]
      exact hfold
    · intro q hq
      rcases List.mem_cons.mp hq with rfl | hq
      · have hnot : (q.1.1, q.1.2) ∉ dictKeys l := by
          rw [Prod.mk.eta]
          exact hndc.1
        rw [hout q.1.1 q.1.2 hnot]
        exact hget1
      · exact hmem q hq
    · intro r c hrc
      rw [mem_dictKeys_cons] at hrc
      push_neg at hrc
      rw [hout r c hrc.2]
      exact hget1' r c (by rw [Prod.mk.eta]; exact hrc.1)

/-! ### Well-formedness of operation results -/

theorem WF_empty (r c : Int) : WF ⟨r, c, []⟩ := by
  refine ⟨List.nodup_nil, ?_, ?_⟩ <;> intro p hp <;> simp at hp

theorem loadStep_WF : ∀ (m : SparseMatrix) (line : List Char) (m' : SparseMatrix),
    WF m → loadStep m line = .ok m' → WF m' := by
  intro m line m' hw h
  unfold loadStep at h
  cases hp : parse_entry line with
  | ok rcv =>
    rw [hp] at h
    exact set_element_WF hw h
  | error e =>
    rw [hp] at h
    exact absurd h (by simp)

theorem loadCore_ok_WF {ls : List (List Char)} {m : SparseMatrix}
    (h : loadCore ls = .ok m) : WF m := by
  unfold loadCore at h
  split at h
  · split at h
    · split at h
      · exact absurd h (by simp)
      · split at h
        · exact absurd h (by simp)
        · exact foldE_preserve loadStep_WF (WF_empty _ _) h
    · exact absurd h (by simp)
  · exact absurd h (by simp)

theorem load_ok_iff {path : String} {ls : List (List Char)} {m : SparseMatrix} :
    load path ls = .ok m ↔
      loadCore ((ls.map stripWS).filter (fun l => !l.isEmpty)) = .ok m := by
  unfold load
  cases loadCore ((ls.map stripWS).filter (fun l => !l.isEmpty)) with
  | ok m2 => simp
  | error e => simp

theorem load_ok_WF {path : String} {ls : List (List Char)} {m : SparseMatrix}
    (h : load path ls = .ok m) : WF m :=
  loadCore_ok_WF (load_ok_iff.mp h)

theorem add_ok_WF {a b m : SparseMatrix} (h : add a b = .ok m) : WF m := by
  unfold add at h
  split at h
  · exact absurd h (by simp)
  · cases h1 : foldE (fun res p => set_element res p.1.1 p.1.2
        (p.2 + get_element b p.1.1 p.1.2)) a.elements ⟨a.rows, a.cols, []⟩ with
    | ok m1 =>
      rw [h1] at h
      have hw1 : WF m1 :=
        foldE_preserve (fun m x m' hw hs => set_element_WF hw hs) (WF_empty _ _) h1
      refine foldE_preserve ?_ hw1 h
      intro m2 x m' hw hs
      by_cases hc : dictContains a.elements x.1
      · rw [if_pos hc] at hs
        injection hs with hs
        exact hs ▸ hw
      · rw [if_neg hc] at hs
        exact set_element_WF hw hs
    | error e =>
      rw [h1] at h
      exact absurd h (by simp)

theorem sub_ok_WF {a b m : SparseMatrix} (h : sub a b = .ok m) : WF m := by
  unfold sub at h
  split at h
  · exact absurd h (by simp)
  · cases h1 : foldE (fun res p => set_element res p.1.1 p.1.2
        (p.2 - get_element b p.1.1 p.1.2)) a.elements ⟨a.rows, a.cols, []⟩ with
    | ok m1 =>
      rw [h1] at h
      have hw1 : WF m1 :=
        foldE_preserve (fun m x m' hw hs => set_element_WF hw hs) (WF_empty _ _) h1
      refine foldE_preserve ?_ hw1 h
      intro m2 x m' hw hs
      by_cases hc : dictContains a.elements x.1
      · rw [if_pos hc] at hs
        injection hs with hs
        exact hs ▸ hw
      · rw [if_neg hc] at hs
        exact set_element_WF hw hs
    | error e =>
      rw [h1] at h
      exact absurd h (by simp)

theorem matmul_ok_WF {a b m : SparseMatrix} (h : matmul a b = .ok m) : WF m := by
  unfold matmul at h
  split at h
  · exact absurd h (by simp)
  · refine foldE_preserve ?_ (WF_empty _ _) h
    intro m2 x m' hw hs
    refine foldE_preserve ?_ hw hs
    intro m3 c2 m'' hw3 hs3
    by_cases hv : get_element b x.1.2 (c2 : Int) ≠ 0
    · rw [if_pos hv] at hs3
      exact set_element_WF hw3 hs3
    · rw [if_neg hv] at hs3
      injection hs3 with hs3
      exact hs3 ▸ hw3

/-! ### Existence of operation results (no IndexError) -/

theorem set_step_ok {m : SparseMatrix} (r c v : Int) (h : inBounds m r c) :
    ∃ m', set_element m r c v = .ok m' ∧ m'.rows = m.rows ∧ m'.cols = m.cols := by
  rcases set_element_spec m r c v h with ⟨m', hok, hr, hc, _⟩
  exact ⟨m', hok, hr, hc⟩

theorem add_ok_of_dims {a b : SparseMatrix} (h2a : InvI2 a) (h2b : InvI2 b)
    (hr : a.rows = b.rows) (hc : a.cols = b.cols) : ∃ m, add a b = .ok m := by
  unfold add
  rw [if_neg (by push_neg; exact ⟨hr, hc⟩)]
  have hstep1 : ∀ (m : SparseMatrix) (x : Key × Int), x ∈ a.elements →
      (m.rows = a.rows ∧ m.cols = a.cols) →
      ∃ m', set_element m x.1.1 x.1.2 (x.2 + get_element b x.1.1 x.1.2) = .ok m' ∧
        (m'.rows = a.rows ∧ m'.cols = a.cols) := by
    intro m x hx hp
    have hb := h2a x hx
    rcases set_step_ok x.1.1 x.1.2 (x.2 + get_element b x.1.1 x.1.2)
      (show inBounds m x.1.1 x.1.2 by unfold inBounds; rw [hp.1, hp.2]; exact hb)
      with ⟨m', hok, hr', hc'⟩
    exact ⟨m', hok, hr'.trans hp.1, hc'.trans hp.2⟩
  rcases foldE_ok a.elements ⟨a.rows, a.cols, []⟩ ⟨rfl, rfl⟩ hstep1 with ⟨m1, h1, hp1⟩
  rw [h1]
  show ∃ m, foldE _ b.elements m1 = .ok m
  have hstep2 : ∀ (m : SparseMatrix) (x : Key × Int), x ∈ b.elements →
      (m.rows = a.rows ∧ m.cols = a.cols) →
      ∃ m', (if dictContains a.elements x.1 then .ok m
          else set_element m x.1.1 x.1.2 x.2) = .ok m' ∧
        (m'.rows = a.rows ∧ m'.cols = a.cols) := by
    intro m x hx hp
    by_cases hcn : dictContains a.elements x.1
    · exact ⟨m, by rw [if_pos hcn], hp⟩
    · have hb := h2b x hx
      rcases set_step_ok x.1.1 x.1.2 x.2
        (show inBounds m x.1.1 x.1.2 by
          unfold inBounds; rw [hp.1, hp.2, hr, hc]; exact hb)
        with ⟨m', hok, hr', hc'⟩
      exact ⟨m', by rw [if_neg hcn]; exact hok, hr'.trans hp.1, hc'.trans hp.2⟩
  rcases foldE_ok b.elements m1 hp1 hstep2 with ⟨m, h2, _⟩
  exact ⟨m, h2⟩

theorem sub_ok_of_dims {a b : SparseMatrix} (h2a : InvI2 a) (h2b : InvI2 b)
    (hr : a.rows = b.rows) (hc : a.cols = b.cols) : ∃ m, sub a b = .ok m := by
  unfold sub
  rw [if_neg (by push_neg; exact ⟨hr, hc⟩)]
  have hstep1 : ∀ (m : SparseMatrix) (x : Key × Int), x ∈ a.elements →
      (m.rows = a.rows ∧ m.cols = a.cols) →
      ∃ m', set_element m x.1.1 x.1.2 (x.2 - get_element b x.1.1 x.1.2) = .ok m' ∧
        (m'.rows = a.rows ∧ m'.cols = a.cols) := by
    intro m x hx hp
    have hb := h2a x hx
    rcases set_step_ok x.1.1 x.1.2 (x.2 - get_element b x.1.1 x.1.2)
      (show inBounds m x.1.1 x.1.2 by unfold inBounds; rw [hp.1, hp.2]; exact hb)
      with ⟨m', hok, hr', hc'⟩
    exact ⟨m', hok, hr'.trans hp.1, hc'.trans hp.2⟩
  rcases foldE_ok a.elements ⟨a.rows, a.cols, []⟩ ⟨rfl, rfl⟩ hstep1 with ⟨m1, h1, hp1⟩
  rw [h1]
  show ∃ m, foldE _ b.elements m1 = .ok m
  have hstep2 : ∀ (m : SparseMatrix) (x : Key × Int), x ∈ b.elements →
      (m.rows = a.rows ∧ m.cols = a.cols) →
      ∃ m', (if dictContains a.elements x.1 then .ok m
          else set_element m x.1.1 x.1.2 (-x.2)) = .ok m' ∧
        (m'.rows = a.rows ∧ m'.cols = a.cols) := by
    intro m x hx hp
    by_cases hcn : dictContains a.elements x.1
    · exact ⟨m, by rw [if_pos hcn], hp⟩
    · have hb := h2b x hx
      rcases set_step_ok x.1.1 x.1.2 (-x.2)
        (show inBounds m x.1.1 x.1.2 by
          unfold inBounds; rw [hp.1, hp.2, hr, hc]; exact hb)
        with ⟨m', hok, hr', hc'⟩
      exact ⟨m', by rw [if_neg hcn]; exact hok, hr'.trans hp.1, hc'.trans hp.2⟩
  rcases foldE_ok b.elements m1 hp1 hstep2 with ⟨m, h2, _⟩
  exact ⟨m, h2⟩

theorem matmul_ok_of_dims {a b : SparseMatrix} (h2a : InvI2 a)
    (hd : a.cols = b.rows) : ∃ m, matmul a b = .ok m := by
  unfold matmul
  rw [if_neg (by push_neg; exact hd)]
  have houter : ∀ (m : SparseMatrix) (x : Key × Int), x ∈ a.elements →
      (m.rows = a.rows ∧ m.cols = b.cols) →
      ∃ m', foldE (fun res2 c2 =>
          if get_element b x.1.2 c2 ≠ 0 then
            set_element res2 x.1.1 c2
              (get_element res2 x.1.1 c2 + x.2 * get_element b x.1.2 c2)
          else .ok res2) (pyRange b.cols) m = .ok m' ∧
        (m'.rows = a.rows ∧ m'.cols = b.cols) := by
    intro m x hx hp
    have hbx := h2a x hx
    have hinner : ∀ (m3 : SparseMatrix) (c2 : Int), c2 ∈ pyRange b.cols →
        (m3.rows = a.rows ∧ m3.cols = b.cols) →
        ∃ m', (if get_element b x.1.2 c2 ≠ 0 then
            set_element m3 x.1.1 c2
              (get_element m3 x.1.1 c2 + x.2 * get_element b x.1.2 c2)
          else .ok m3) = .ok m' ∧
          (m'.rows = a.rows ∧ m'.cols = b.cols) := by
      intro m3 c2 hc2 hp3
      rcases List.mem_map.mp hc2 with ⟨k, hk, hke⟩
      have hkr := List.mem_range.mp hk
      have hc2' : 0 ≤ c2 ∧ c2 < b.cols := by
        subst hke
        constructor
        · positivity
        · omega
      by_cases hv : get_element b x.1.2 c2 ≠ 0
      · rcases set_step_ok x.1.1 c2
          (get_element m3 x.1.1 c2 + x.2 * get_element b x.1.2 c2)
          (show inBounds m3 x.1.1 c2 by
            unfold inBounds
            rw [hp3.1, hp3.2]
            exact ⟨hbx.1, hbx.2.1, hc2'.1, hc2'.2⟩)
          with ⟨m', hok, hr', hc'⟩
        exact ⟨m', by rw [if_pos hv]; exact hok, hr'.trans hp3.1, hc'.trans hp3.2⟩
      · exact ⟨m3, by rw [if_neg hv], hp3⟩
    exact foldE_ok (pyRange b.cols) m hp hinner
  rcases foldE_ok a.elements ⟨a.rows, b.cols, []⟩ ⟨rfl, rfl⟩ houter with ⟨m, h, _⟩
  exact ⟨m, h⟩

/-! ### Claim C6 -/

/-- Claim C6: for every matrix and every pair of integers, including
coordinates outside the declared bounds, `get_element` is a total
function (it can never raise): it returns the stored value when an
entry exists for the key, and `0` otherwise. -/
theorem claim_C6_get_never_fails (m : SparseMatrix) (r c : Int) :
    (∀ v : Int, NodupKeys m → ((r, c), v) ∈ m.elements → get_element m r c = v) ∧
    ((r, c) ∉ dictKeys m.elements → get_element m r c = 0) :=
  ⟨fun _ hnd hmem => dictGet_eq_of_mem hnd hmem, fun h => dictGet_of_not_mem h⟩

/-- Witness for C6 at a concrete matrix: a stored key, and an
out-of-range key. -/
theorem claim_C6_get_never_fails_witness :
    get_element ⟨2, 2, [((0, 0), 5), ((1, 1), -3)]⟩ 1 1 = -3 ∧
    get_element ⟨2, 2, [((0, 0), 5), ((1, 1), -3)]⟩ 7 9 = 0 :=
  ⟨(claim_C6_get_never_fails ⟨2, 2, [((0, 0), 5), ((1, 1), -3)]⟩ 1 1).1 (-3)
      (by decide) (by decide),
    (claim_C6_get_never_fails ⟨2, 2, [((0, 0), 5), ((1, 1), -3)]⟩ 7 9).2 (by decide)⟩

/-! ### Claim C3 -/

/-- Claim C3: every matrix produced or mutated through the public
operations (loading, set, addition, subtraction, multiplication)
satisfies the invariants I1 (every stored value non-zero) and I2
(every stored key within bounds). -/
theorem claim_C3_invariants :
    (∀ (path : String) (ls : List (List Char)) (m : SparseMatrix),
        load path ls = .ok m → InvI1 m ∧ InvI2 m) ∧
    (∀ (m : SparseMatrix) (r c v : Int) (m' : SparseMatrix),
        WF m → set_element m r c v = .ok m' → InvI1 m' ∧ InvI2 m') ∧
    (∀ a b m : SparseMatrix, add a b = .ok m → InvI1 m ∧ InvI2 m) ∧
    (∀ a b m : SparseMatrix, sub a b = .ok m → InvI1 m ∧ InvI2 m) ∧
    (∀ a b m : SparseMatrix, matmul a b = .ok m → InvI1 m ∧ InvI2 m) := by
  refine ⟨?_, ?_, ?_, ?_, ?_⟩
  · intro path ls m h
    have := load_ok_WF h
    exact ⟨this.2.1, this.2.2⟩
  · intro m r c v m' hwf h
    have := set_element_WF hwf h
    exact ⟨this.2.1, this.2.2⟩
  · intro a b m h
    have := add_ok_WF h
    exact ⟨this.2.1, this.2.2⟩
  · intro a b m h
    have := sub_ok_WF h
    exact ⟨this.2.1, this.2.2⟩
  · intro a b m h
    have := matmul_ok_WF h
    exact ⟨this.2.1, this.2.2⟩

/-- Witness for C3: one concrete application of each of the five
conjuncts. -/
theorem claim_C3_invariants_witness :
    (InvI1 (⟨2, 2, [((0, 1), 5)]⟩ : SparseMatrix) ∧ InvI2 ⟨2, 2, [((0, 1), 5)]⟩) ∧
    (InvI1 (⟨2, 2, [((0, 0), 7)]⟩ : SparseMatrix) ∧ InvI2 ⟨2, 2, [((0, 0), 7)]⟩) ∧
    (InvI1 (⟨1, 1, [((0, 0), 5)]⟩ : SparseMatrix) ∧ InvI2 ⟨1, 1, [((0, 0), 5)]⟩) ∧
    (InvI1 (⟨1, 1, [((0, 0), -1)]⟩ : SparseMatrix) ∧ InvI2 ⟨1, 1, [((0, 0), -1)]⟩) ∧
    (InvI1 (⟨1, 1, [((0, 0), 6)]⟩ : SparseMatrix) ∧ InvI2 ⟨1, 1, [((0, 0), 6)]⟩) :=
  ⟨claim_C3_invariants.1 "f.txt"
      ["rows=2".data, "cols=2".data, "(0, 1, 5)".data] ⟨2, 2, [((0, 1), 5)]⟩ rfl,
    claim_C3_invariants.2.1 ⟨2, 2, []⟩ 0 0 7 ⟨2, 2, [((0, 0), 7)]⟩ (by decide) rfl,
    claim_C3_invariants.2.2.1 ⟨1, 1, [((0, 0), 2)]⟩ ⟨1, 1, [((0, 0), 3)]⟩
      ⟨1, 1, [((0, 0), 5)]⟩ rfl,
    claim_C3_invariants.2.2.2.1 ⟨1, 1, [((0, 0), 2)]⟩ ⟨1, 1, [((0, 0), 3)]⟩
      ⟨1, 1, [((0, 0), -1)]⟩ rfl,
    claim_C3_invariants.2.2.2.2 ⟨1, 1, [((0, 0), 2)]⟩ ⟨1, 1, [((0, 0), 3)]⟩
      ⟨1, 1, [((0, 0), 6)]⟩ rfl⟩

/-! ### Claim C10 -/

/-- Claim C10: for operands satisfying invariant I2 that pass the
dimension check of the operation, addition, subtraction and
multiplication always return a result: the `IndexError` branch of the
bounded setter is unreachable, so the operations never raise. -/
theorem claim_C10_no_index_error :
    (∀ a b : SparseMatrix, InvI2 a → InvI2 b → a.rows = b.rows → a.cols = b.cols →
        ∃ m, add a b = .ok m) ∧
    (∀ a b : SparseMatrix, InvI2 a → InvI2 b → a.rows = b.rows → a.cols = b.cols →
        ∃ m, sub a b = .ok m) ∧
    (∀ a b : SparseMatrix, InvI2 a → InvI2 b → a.cols = b.rows →
        ∃ m, matmul a b = .ok m) :=
  ⟨fun _ _ h2a h2b hr hc => add_ok_of_dims h2a h2b hr hc,
    fun _ _ h2a h2b hr hc => sub_ok_of_dims h2a h2b hr hc,
    fun _ _ h2a _ hd => matmul_ok_of_dims h2a hd⟩

/-- Witness for C10: concrete applications of the three conjuncts. -/
theorem claim_C10_no_index_error_witness :
    (∃ m, add ⟨2, 2, [((1, 1), 4)]⟩ ⟨2, 2, [((0, 1), 2)]⟩ = .ok m) ∧
    (∃ m, sub ⟨2, 2, [((1, 1), 4)]⟩ ⟨2, 2, [((0, 1), 2)]⟩ = .ok m) ∧
    (∃ m, matmul ⟨2, 3, [((1, 2), 4)]⟩ ⟨3, 2, [((2, 0), 2)]⟩ = .ok m) :=
  ⟨claim_C10_no_index_error.1 ⟨2, 2, [((1, 1), 4)]⟩ ⟨2, 2, [((0, 1), 2)]⟩
      (by decide) (by decide) rfl rfl,
    claim_C10_no_index_error.2.1 ⟨2, 2, [((1, 1), 4)]⟩ ⟨2, 2, [((0, 1), 2)]⟩
      (by decide) (by decide) rfl rfl,
    claim_C10_no_index_error.2.2 ⟨2, 3, [((1, 2), 4)]⟩ ⟨3, 2, [((2, 0), 2)]⟩
      (by decide) (by decide) rfl⟩

/-! ### Addition characterization -/

theorem add_ok_get {a b : SparseMatrix} (ha : WF a) (hb : WF b)
    (hr : a.rows = b.rows) (hc : a.cols = b.cols) :
    ∃ m, add a b = .ok m ∧ m.rows = a.rows ∧ m.cols = a.cols ∧
      ∀ r c, get_element m r c = get_element a r c + get_element b r c := by
  have hcond : ¬(a.rows ≠ b.rows ∨ a.cols ≠ b.cols) := by push_neg; exact ⟨hr, hc⟩
  rcases foldE_set_fresh (fun p => p.2 + get_element b p.1.1 p.1.2) a.elements
      ⟨a.rows, a.cols, []⟩ ha.1 (fun p hp => ha.2.2 p hp)
    with ⟨m1, hfold1, hr1, hc1, hget1, hout1⟩
  have er1 : m1.rows = a.rows := hr1
  have ec1 : m1.cols = a.cols := hc1
  have hL2nd : (dictKeys (b.elements.filter
      (fun p => !dictContains a.elements p.1))).Nodup :=
    List.Nodup.sublist (List.Sublist.map Prod.fst (List.filter_sublist _)) hb.1
  have hL2b : ∀ p ∈ b.elements.filter (fun p => !dictContains a.elements p.1),
      inBounds m1 p.1.1 p.1.2 := by
    intro p hp
    have hpb := (List.mem_filter.mp hp).1
    have := hb.2.2 p hpb
    unfold inBounds
    rw [er1, ec1, hr, hc]
    exact this
  rcases foldE_set_fresh (fun p => p.2)
      (b.elements.filter (fun p => !dictContains a.elements p.1)) m1 hL2nd hL2b
    with ⟨m2, hfold2, hr2, hc2, hget2, hout2⟩
  have hloop2 : foldE (fun res p =>
      if dictContains a.elements p.1 then .ok res
      else set_element res p.1.1 p.1.2 p.2) b.elements m1 = .ok m2 := by
    rw [foldE_skip]
    exact hfold2
  refine ⟨m2, ?_, hr2.trans er1, hc2.trans ec1, ?_⟩
  · unfold add
    rw [if_neg hcond, hfold1]
    exact hloop2
  · intro r c
    by_cases hka : (r, c) ∈ dictKeys a.elements
    · have hnf : (r, c) ∉ dictKeys (b.elements.filter
          (fun p => !dictContains a.elements p.1)) := by
        intro hmem
        rcases List.mem_map.mp hmem with ⟨p, hp, he⟩
        have hcnot := (List.mem_filter.mp hp).2
        simp only [Bool.not_eq_eq_eq_not, Bool.not_true] at hcnot
        rw [he] at hcnot
        exact absurd ((dictContains_iff _ _).mpr hka)
          (by rw [hcnot]; exact Bool.false_ne_true)
      rw [hout2 r c hnf]
      have hpa := dictGet_mem_of_mem_keys hka
      have := hget1 ((r, c), dictGet a.elements (r, c)) hpa
      exact this
    · have hga : get_element a r c = 0 := dictGet_of_not_mem hka
      by_cases hkb : (r, c) ∈ dictKeys b.elements
      · have hpb := dictGet_mem_of_mem_keys hkb
        have hpf : ((r, c), dictGet b.elements (r, c)) ∈
            b.elements.filter (fun p => !dictContains a.elements p.1) := by
          refine List.mem_filter.mpr ⟨hpb, ?_⟩
          simp only [Bool.not_eq_eq_eq_not, Bool.not_true]
          rw [← Bool.not_eq_true]
          exact fun hcn => hka ((dictContains_iff _ _).mp hcn)
        have := hget2 ((r, c), dictGet b.elements (r, c)) hpf
        rw [this, hga]
        show dictGet b.elements (r, c) = 0 + dictGet b.elements (r, c)
        omega
      · have hnf : (r, c) ∉ dictKeys (b.elements.filter
            (fun p => !dictContains a.elements p.1)) := by
          intro hmem
          rcases List.mem_map.mp hmem with ⟨p, hp, he⟩
          exact hkb (List.mem_map.mpr ⟨p, (List.mem_filter.mp hp).1, he⟩)
        have hgb : get_element b r c = 0 := dictGet_of_not_mem hkb
        rw [hout2 r c hnf, hout1 r c hka, hga, hgb]
        rfl

/-! ### Claim C1 -/

/-- Claim C1: addition fails with the dimension-mismatch error unless
the two operands have equal rows and cols; otherwise it returns a new
matrix of the same dimensions in which every key non-zero in either
operand holds the sum of the operand entries, and keys whose sum is
zero are absent from the entry mapping. -/
theorem claim_C1_addition (a b : SparseMatrix) (ha : WF a) (hb : WF b) :
    (a.rows ≠ b.rows ∨ a.cols ≠ b.cols →
        add a b = .error "Matrix dimensions do not match for addition") ∧
    (a.rows = b.rows → a.cols = b.cols →
        ∃ m, add a b = .ok m ∧ m.rows = a.rows ∧ m.cols = a.cols ∧
          (∀ r c, (get_element a r c ≠ 0 ∨ get_element b r c ≠ 0) →
            get_element m r c = get_element a r c + get_element b r c) ∧
          (∀ r c, get_element a r c + get_element b r c = 0 →
            (r, c) ∉ dictKeys m.elements)) := by
  constructor
  · intro h
    unfold add
    rw [if_pos h]
  · intro hr hc
    rcases add_ok_get ha hb hr hc with ⟨m, hok, hrm, hcm, hget⟩
    refine ⟨m, hok, hrm, hcm, fun r c _ => hget r c, ?_⟩
    intro r c hsum
    have h0 : get_element m r c = 0 := by rw [hget r c, hsum]
    exact (get_eq_zero_iff (add_ok_WF hok).2.1 r c).mp h0

/-- Witness for C1 at concrete operands, including a pair of entries
that cancels to zero. -/
theorem claim_C1_addition_witness :
    WF (⟨2, 2, [((0, 0), 1), ((0, 1), 2)]⟩ : SparseMatrix) ∧
    WF (⟨2, 2, [((0, 0), -1), ((1, 1), 7)]⟩ : SparseMatrix) ∧
    ((((2 : Int) ≠ 2 ∨ (2 : Int) ≠ 2) →
        add ⟨2, 2, [((0, 0), 1), ((0, 1), 2)]⟩ ⟨2, 2, [((0, 0), -1), ((1, 1), 7)]⟩ =
          .error "Matrix dimensions do not match for addition") ∧
      ((2 : Int) = 2 → (2 : Int) = 2 →
        ∃ m, add ⟨2, 2, [((0, 0), 1), ((0, 1), 2)]⟩
            ⟨2, 2, [((0, 0), -1), ((1, 1), 7)]⟩ = .ok m ∧
          m.rows = 2 ∧ m.cols = 2 ∧
          (∀ r c, (get_element ⟨2, 2, [((0, 0), 1), ((0, 1), 2)]⟩ r c ≠ 0 ∨
              get_element ⟨2, 2, [((0, 0), -1), ((1, 1), 7)]⟩ r c ≠ 0) →
            get_element m r c =
              get_element ⟨2, 2, [((0, 0), 1), ((0, 1), 2)]⟩ r c +
                get_element ⟨2, 2, [((0, 0), -1), ((1, 1), 7)]⟩ r c) ∧
          (∀ r c, get_element ⟨2, 2, [((0, 0), 1), ((0, 1), 2)]⟩ r c +
              get_element ⟨2, 2, [((0, 0), -1), ((1, 1), 7)]⟩ r c = 0 →
            (r, c) ∉ dictKeys m.elements))) :=
  ⟨by decide, by decide,
    claim_C1_addition ⟨2, 2, [((0, 0), 1), ((0, 1), 2)]⟩
      ⟨2, 2, [((0, 0), -1), ((1, 1), 7)]⟩ (by decide) (by decide)⟩

/-! ### Multiplication characterization -/

theorem mem_pyRange {n c : Int} : c ∈ pyRange n ↔ 0 ≤ c ∧ c < n := by
  unfold pyRange
  constructor
  · intro h
    rcases List.mem_map.mp h with ⟨k, hk, hke⟩
    have := List.mem_range.mp hk
    subst hke
    constructor
    · positivity
    · omega
  · rintro ⟨h0, hn⟩
    refine List.mem_map.mpr ⟨c.toNat, List.mem_range.mpr (by omega), by omega⟩

theorem pyRange_nodup (n : Int) : (pyRange n).Nodup := by
  unfold pyRange
  exact List.Nodup.map (fun a b h => by exact_mod_cast h) (List.nodup_range _)

theorem matmul_inner_fold (b : SparseMatrix) (r1 c1 v1 : Int) :
    ∀ (cs : List Int) (m0 : SparseMatrix),
      cs.Nodup →
      (∀ x ∈ cs, 0 ≤ x ∧ x < m0.cols) →
      0 ≤ r1 → r1 < m0.rows →
      ∃ m, foldE (fun res2 c2 =>
          if get_element b c1 c2 ≠ 0 then
            set_element res2 r1 c2 (get_element res2 r1 c2 + v1 * get_element b c1 c2)
          else .ok res2) cs m0 = .ok m ∧
        m.rows = m0.rows ∧ m.cols = m0.cols ∧
        (∀ r c : Int, get_element m r c =
          get_element m0 r c +
            (if r = r1 ∧ c ∈ cs then v1 * get_element b c1 c else 0)) := by
  intro cs
  induction cs with
  | nil =>
    intro m0 _ _ _ _
    exact ⟨m0, rfl, rfl, rfl, by intro r c; simp⟩
  | cons x cs ih =>
    intro m0 hnd hbnd hr0 hr1
    have hndc := List.nodup_cons.mp hnd
    have hxb := hbnd x (List.mem_cons_self x cs)
    obtain ⟨m1, hstep_eq, hrows1, hcols1, hstep⟩ :
        ∃ m1, (if get_element b c1 x ≠ 0 then
            set_element m0 r1 x (get_element m0 r1 x + v1 * get_element b c1 x)
          else .ok m0) = .ok m1 ∧ m1.rows = m0.rows ∧ m1.cols = m0.cols ∧
          (∀ r c : Int, get_element m1 r c =
            get_element m0 r c +
              (if r = r1 ∧ c = x then v1 * get_element b c1 x else 0)) := by
      by_cases hv : get_element b c1 x ≠ 0
      · rcases set_element_spec m0 r1 x (get_element m0 r1 x + v1 * get_element b c1 x)
          ⟨hr0, hr1, hxb.1, hxb.2⟩ with ⟨m1, hok, hrr, hcc, hself, hother⟩
        refine ⟨m1, by rw [if_pos hv]; exact hok, hrr, hcc, ?_⟩
        intro r c
        by_cases hrc : r = r1 ∧ c = x
        · rw [hrc.1, hrc.2, if_pos ⟨rfl, rfl⟩]
          exact hself
        · have hne : (r, c) ≠ (r1, x) := by simpa using hrc
          rw [hother r c hne, if_neg hrc, add_zero]
      · refine ⟨m0, by rw [if_neg hv], rfl, rfl, ?_⟩
        push_neg at hv
        intro r c
        by_cases hrc : r = r1 ∧ c = x
        · rw [if_pos hrc, hrc.2, hv, mul_zero, add_zero]
        · rw [if_neg hrc, add_zero]
    have hbnd1 : ∀ y ∈ cs, 0 ≤ y ∧ y < m1.cols := by
      intro y hy
      rw [hcols1]
      exact hbnd y (List.mem_cons_of_mem x hy)
    rcases ih m1 hndc.2 hbnd1 hr0 (by rw [hrows1]; exact hr1)
      with ⟨m, hfold, hrm, hcm, hget⟩
    refine ⟨m, ?_, hrm.trans hrows1, hcm.trans hcols1, ?_⟩
    · rw [foldE_cons, hstep_eq]
      exact hfold
    · intro r c
      rw [hget r c, hstep r c]
      by_cases hr : r = r1
      · subst hr
        by_cases hcx : c = x
        · subst hcx
          rw [if_pos ⟨rfl, rfl⟩, if_neg (fun h => hndc.1 h.2),
            if_pos ⟨rfl, List.mem_cons_self c cs⟩, add_zero]
        · rw [if_neg (fun h => hcx h.2)]
          by_cases hcs : c ∈ cs
          · rw [if_pos ⟨rfl, hcs⟩, if_pos ⟨rfl, List.mem_cons_of_mem x hcs⟩, add_zero]
          · rw [if_neg (fun h => hcs h.2),
              if_neg (fun h => (List.mem_cons.mp h.2).elim hcx hcs)]
            simp
      · rw [if_neg (fun h => hr h.1), if_neg (fun h => hr h.1),
          if_neg (fun h => hr h.1), add_zero]

theorem matmul_outer_fold (b : SparseMatrix) :
    ∀ (l : List (Key × Int)) (m0 : SparseMatrix),
      m0.cols = b.cols →
      (∀ p ∈ l, 0 ≤ p.1.1 ∧ p.1.1 < m0.rows) →
      ∃ m, foldE (fun res p =>
          foldE (fun res2 c2 =>
              if get_element b p.1.2 c2 ≠ 0 then
                set_element res2 p.1.1 c2
                  (get_element res2 p.1.1 c2 + p.2 * get_element b p.1.2 c2)
              else .ok res2) (pyRange b.cols) res) l m0 = .ok m ∧
        m.rows = m0.rows ∧ m.cols = m0.cols ∧
        (∀ r c : Int, get_element m r c = get_element m0 r c +
          (if 0 ≤ c ∧ c < b.cols then
            (l.map (fun p =>
              if p.1.1 = r then p.2 * get_element b p.1.2 c else 0)).sum
          else 0)) := by
  intro l
  induction l with
  | nil =>
    intro m0 _ _
    exact ⟨m0, rfl, rfl, rfl, by intro r c; simp⟩
  | cons p l ih =>
    intro m0 hcols hrows
    have hp0 := hrows p (List.mem_cons_self p l)
    rcases matmul_inner_fold b p.1.1 p.1.2 p.2 (pyRange b.cols) m0
        (pyRange_nodup b.cols)
        (fun x hx => by rw [hcols]; exact mem_pyRange.mp hx) hp0.1 hp0.2
      with ⟨m1, hinner, hrows1, hcols1, hget1⟩
    have hrows' : ∀ q ∈ l, 0 ≤ q.1.1 ∧ q.1.1 < m1.rows := by
      intro q hq
      rw [hrows1]
      exact hrows q (List.mem_cons_of_mem p hq)
    rcases ih m1 (hcols1.trans hcols) hrows' with ⟨m, hfold, hrm, hcm, hget⟩
    refine ⟨m, ?_, hrm.trans hrows1, hcm.trans hcols1, ?_⟩
    · rw [foldE_cons, hinner]
      exact hfold
    · intro r c
      rw [hget r c, hget1 r c, List.map_cons, List.sum_cons]
      by_cases hcr : 0 ≤ c ∧ c < b.cols
      · rw [if_pos hcr, if_pos hcr]
        by_cases hpr : p.1.1 = r
        · rw [if_pos hpr, if_pos ⟨hpr.symm, mem_pyRange.mpr hcr⟩]
          ring
        · rw [if_neg hpr, if_neg (fun h => hpr h.1.symm), zero_add, add_zero]
      · rw [if_neg hcr, if_neg hcr,
          if_neg (fun h => hcr (mem_pyRange.mp h.2)), add_zero, add_zero]

theorem dict_sum_bridge (b : SparseMatrix) :
    ∀ (l : List (Key × Int)), (dictKeys l).Nodup →
      ∀ (C : Int), (∀ p ∈ l, 0 ≤ p.1.2 ∧ p.1.2 < C) →
      ∀ (r c : Int),
        Finset.sum (Finset.range C.toNat)
          (fun k => dictGet l (r, (k : Int)) * get_element b (k : Int) c) =
        (l.map (fun p =>
          if p.1.1 = r then p.2 * get_element b p.1.2 c else 0)).sum := by
  intro l
  induction l with
  | nil =>
    intro _ C _ r c
    simp [dictGet_nil]
  | cons p l ih =>
    intro hnd C hcb r c
    have hndc : p.1 ∉ dictKeys l ∧ (dictKeys l).Nodup := by
      have h : (p.1 :: dictKeys l).Nodup := hnd
      exact List.nodup_cons.mp h
    have hpb := hcb p (List.mem_cons_self p l)
    have hcl : ∀ q ∈ l, 0 ≤ q.1.2 ∧ q.1.2 < C :=
      fun q hq => hcb q (List.mem_cons_of_mem p hq)
    rw [List.map_cons, List.sum_cons, ← ih hndc.2 C hcl r c]
    by_cases hp : p.1.1 = r
    · have hpt : ∀ k ∈ Finset.range C.toNat,
          dictGet (p :: l) (r, (k : Int)) * get_element b (k : Int) c =
            dictGet l (r, (k : Int)) * get_element b (k : Int) c +
              (if k = p.1.2.toNat then p.2 * get_element b p.1.2 c else 0) := by
        intro k _
        rw [dictGet_cons]
        by_cases hkk : k = p.1.2.toNat
        · subst hkk
          have hcast : ((p.1.2.toNat : Nat) : Int) = p.1.2 := by omega
          have hkey : p.1 = (r, ((p.1.2.toNat : Nat) : Int)) := by
            rw [hcast, ← hp]
          rw [if_pos hkey, if_pos rfl,
            dictGet_of_not_mem
              (show (r, ((p.1.2.toNat : Nat) : Int)) ∉ dictKeys l from
                hkey ▸ hndc.1),
            hcast, zero_mul, zero_add]
        · have hkne : p.1 ≠ (r, (k : Int)) := by
            intro he
            have h2 : p.1.2 = (k : Int) := congrArg Prod.snd he
            exact hkk (by omega)
          rw [if_neg hkne, if_neg hkk, add_zero]
      rw [Finset.sum_congr rfl hpt, Finset.sum_add_distrib, Finset.sum_ite_eq',
        if_pos (Finset.mem_range.mpr (by omega)), if_pos hp]
      ring
    · have hpt : ∀ k ∈ Finset.range C.toNat,
          dictGet (p :: l) (r, (k : Int)) * get_element b (k : Int) c =
            dictGet l (r, (k : Int)) * get_element b (k : Int) c := by
        intro k _
        rw [dictGet_cons, if_neg (fun he => hp (congrArg Prod.fst he))]
      rw [Finset.sum_congr rfl hpt, if_neg hp, zero_add]

theorem matmul_ok_prod {a b : SparseMatrix} (ha : WF a) (h2b : InvI2 b)
    (hd : a.cols = b.rows) :
    ∃ m, matmul a b = .ok m ∧ m.rows = a.rows ∧ m.cols = b.cols ∧
      ∀ r c : Int, get_element m r c = matProdEntry a b r c := by
  rcases matmul_outer_fold b a.elements ⟨a.rows, b.cols, []⟩ rfl
      (fun p hp => ⟨(ha.2.2 p hp).1, (ha.2.2 p hp).2.1⟩)
    with ⟨m, hfold, hrm, hcm, hget⟩
  refine ⟨m, ?_, hrm, hcm, ?_⟩
  · unfold matmul
    rw [if_neg (by push_neg; exact hd)]
    exact hfold
  · intro r c
    have h0 : get_element (⟨a.rows, b.cols, []⟩ : SparseMatrix) r c = 0 := rfl
    rw [hget r c, h0, zero_add]
    by_cases hcr : 0 ≤ c ∧ c < b.cols
    · rw [if_pos hcr]
      have hbridge := dict_sum_bridge b a.elements ha.1 a.cols
        (fun p hp => ⟨(ha.2.2 p hp).2.2.1, (ha.2.2 p hp).2.2.2⟩) r c
      exact hbridge.symm
    · rw [if_neg hcr]
      have : ∀ k ∈ Finset.range a.cols.toNat,
          get_element a r (k : Int) * get_element b (k : Int) c = 0 := by
        intro k _
        rw [get_eq_zero_of_out h2b
          (fun hib => hcr ⟨hib.2.2.1, hib.2.2.2⟩), mul_zero]
      exact (Finset.sum_eq_zero this).symm

/-! ### Claim C2 -/

/-- Claim C2: multiplication fails with the dimension-mismatch error
unless the inner dimensions agree; otherwise it returns a fresh matrix
of dimensions `a.rows` by `b.cols` whose every coordinate equals the
standard matrix product entry (the row-driven column-scan accumulation
of the source produces exactly the standard product). -/
theorem claim_C2_multiplication (a b : SparseMatrix) (ha : WF a) (h2b : InvI2 b) :
    (a.cols ≠ b.rows →
        matmul a b = .error "Matrix dimensions do not match for multiplication") ∧
    (a.cols = b.rows →
        ∃ m, matmul a b = .ok m ∧ m.rows = a.rows ∧ m.cols = b.cols ∧
          ∀ r c : Int, get_element m r c = matProdEntry a b r c) := by
  constructor
  · intro h
    unfold matmul
    rw [if_pos h]
  · intro hd
    exact matmul_ok_prod ha h2b hd

/-- Witness for C2 at the literal scenario of the spec: A with entries
at (0,0), (0,1), (1,0) times the 2 by 2 identity. -/
theorem claim_C2_multiplication_witness :
    WF (⟨2, 2, [((0, 0), 1), ((0, 1), 2), ((1, 0), 3)]⟩ : SparseMatrix) ∧
    InvI2 (⟨2, 2, [((0, 0), 1), ((1, 1), 1)]⟩ : SparseMatrix) ∧
    (((2 : Int) ≠ 2 →
        matmul ⟨2, 2, [((0, 0), 1), ((0, 1), 2), ((1, 0), 3)]⟩
            ⟨2, 2, [((0, 0), 1), ((1, 1), 1)]⟩ =
          .error "Matrix dimensions do not match for multiplication") ∧
      ((2 : Int) = 2 →
        ∃ m, matmul ⟨2, 2, [((0, 0), 1), ((0, 1), 2), ((1, 0), 3)]⟩
            ⟨2, 2, [((0, 0), 1), ((1, 1), 1)]⟩ = .ok m ∧
          m.rows = 2 ∧ m.cols = 2 ∧
          ∀ r c : Int, get_element m r c =
            matProdEntry ⟨2, 2, [((0, 0), 1), ((0, 1), 2), ((1, 0), 3)]⟩
              ⟨2, 2, [((0, 0), 1), ((1, 1), 1)]⟩ r c)) :=
  ⟨by decide, by decide,
    claim_C2_multiplication ⟨2, 2, [((0, 0), 1), ((0, 1), 2), ((1, 0), 3)]⟩
      ⟨2, 2, [((0, 0), 1), ((1, 1), 1)]⟩ (by decide) (by decide)⟩

/-! ### Claim C7 -/

/-- Claim C7: `save_to_file` emits first `rows=<rows>`, then
`cols=<cols>`, then exactly one line per stored (hence non-zero) entry
formatted `(<row>, <col>, <value>)`, with the entries sorted by
ascending row and, within a row, ascending column; no line is emitted
for any zero-valued cell. -/
theorem claim_C7_save_format (m : SparseMatrix) (hwf : WF m) :
    ∃ es : List (Key × Int),
      List.Perm m.elements es ∧
      es.Pairwise (fun p q => p.1.1 < q.1.1 ∨ (p.1.1 = q.1.1 ∧ p.1.2 < q.1.2)) ∧
      (∀ p ∈ es, p.2 ≠ 0) ∧
      save_lines m =
        (rowsTag ++ intToStr m.rows) :: (colsTag ++ intToStr m.cols) ::
          es.map formatEntry := by
  refine ⟨sortedEntries m.elements, ?_, ?_, ?_, rfl⟩
  · exact (List.perm_insertionSort entryLe m.elements).symm
  · have hsorted : (sortedEntries m.elements).Pairwise entryLe :=
      List.sorted_insertionSort entryLe m.elements
    have hnd : (dictKeys (sortedEntries m.elements)).Nodup := by
      unfold dictKeys
      exact hwf.1.perm
        ((List.perm_insertionSort entryLe m.elements).symm.map Prod.fst)
    have hne : (sortedEntries m.elements).Pairwise (fun p q => p.1 ≠ q.1) :=
      List.pairwise_map.mp hnd
    refine (hsorted.and hne).imp ?_
    intro p q hpq
    rcases hpq with ⟨hle, hne2⟩
    have hne3 : ¬(p.1.1 = q.1.1 ∧ p.1.2 = q.1.2) := by
      intro h
      exact hne2 (Prod.ext h.1 h.2)
    unfold entryLe at hle
    rcases hle with h | ⟨he, h | ⟨he2, _⟩⟩
    · exact Or.inl h
    · exact Or.inr ⟨he, h⟩
    · exact absurd ⟨he, he2⟩ hne3
  · intro p hp
    exact hwf.2.1 p ((List.perm_insertionSort entryLe m.elements).mem_iff.mp hp)

/-- Witness for C7 at the ordering scenario of the spec: entries
inserted in the order (1,0), (0,2), (0,0). -/
theorem claim_C7_save_format_witness :
    WF (⟨2, 3, [((1, 0), 5), ((0, 2), 3), ((0, 0), 1)]⟩ : SparseMatrix) ∧
    (∃ es : List (Key × Int),
      List.Perm [((1, 0), 5), ((0, 2), 3), ((0, 0), 1)] es ∧
      es.Pairwise (fun p q => p.1.1 < q.1.1 ∨ (p.1.1 = q.1.1 ∧ p.1.2 < q.1.2)) ∧
      (∀ p ∈ es, p.2 ≠ 0) ∧
      save_lines ⟨2, 3, [((1, 0), 5), ((0, 2), 3), ((0, 0), 1)]⟩ =
        (rowsTag ++ intToStr 2) :: (colsTag ++ intToStr 3) ::
          es.map formatEntry) :=
  ⟨by decide,
    claim_C7_save_format ⟨2, 3, [((1, 0), 5), ((0, 2), 3), ((0, 0), 1)]⟩ (by decide)⟩


/-! ### Integer-literal lemmas -/

theorem digit_dropWhile_dash {l : List Char} (h : l.all Char.isDigit = true) :
    l.dropWhile (fun c => c == '-') = l := by
  cases l with
  | nil => rfl
  | cons c rest =>
    rw [List.dropWhile_cons]
    have hc : c.isDigit := List.all_eq_true.mp h c (List.mem_cons_self c rest)
    have hne : ¬(c == '-') = true := by
      intro he
      rw [beq_iff_eq] at he
      subst he
      exact absurd hc (by decide)
    rw [if_neg hne]

theorem specValidInt_dash (rest : List Char) :
    specValidInt ('-' :: rest) = (!rest.isEmpty && rest.all Char.isDigit) := by
  unfold specValidInt
  rw [if_pos (show ('-' :: rest).head? = some '-' from rfl)]
  rfl

theorem specValidInt_nodash {c : Char} (rest : List Char) (hc : c ≠ '-') :
    specValidInt (c :: rest) =
      (!(c :: rest).isEmpty && (c :: rest).all Char.isDigit) := by
  unfold specValidInt
  rw [if_neg (by simp [hc])]

theorem specIntVal_dash (rest : List Char) :
    specIntVal ('-' :: rest) = -(digitsToNat rest : Int) := by
  unfold specIntVal
  rw [if_pos (show ('-' :: rest).head? = some '-' from rfl)]
  rfl

theorem specIntVal_nodash {c : Char} (rest : List Char) (hc : c ≠ '-') :
    specIntVal (c :: rest) = (digitsToNat (c :: rest) : Int) := by
  unfold specIntVal
  rw [if_neg (by simp [hc])]

theorem pyInt?_dash (rest : List Char) :
    pyInt? ('-' :: rest) =
      Option.map (fun v : Nat => -(v : Int)) (digitsVal? rest) := by
  unfold pyInt?
  rw [if_pos (show ('-' :: rest).head? = some '-' from rfl)]
  rfl

theorem pyInt?_nosign {c : Char} (rest : List Char) (h1 : c ≠ '-') (h2 : c ≠ '+') :
    pyInt? (c :: rest) =
      Option.map (fun v : Nat => (v : Int)) (digitsVal? (c :: rest)) := by
  unfold pyInt?
  rw [if_neg (by simp [h1]), if_neg (by simp [h2])]

theorem specValid_pyValid {l : List Char} (h : specValidInt l = true) :
    pyIsValidInteger l = true := by
  unfold pyIsValidInteger
  cases l with
  | nil => simp [specValidInt] at h
  | cons c rest =>
    by_cases hc : c = '-'
    · subst hc
      rw [specValidInt_dash] at h
      have hall := (Bool.and_eq_true_iff.mp h).2
      rw [List.dropWhile_cons, if_pos (by simp), digit_dropWhile_dash hall]
      exact h
    · rw [specValidInt_nodash rest hc] at h
      have hall := (Bool.and_eq_true_iff.mp h).2
      rw [digit_dropWhile_dash hall]
      exact h

theorem specValid_no_dot {l : List Char} (h : specValidInt l = true) :
    '.' ∉ l := by
  intro hmem
  cases l with
  | nil => simp at hmem
  | cons c rest =>
    by_cases hc : c = '-'
    · subst hc
      rw [specValidInt_dash] at h
      have hall := (Bool.and_eq_true_iff.mp h).2
      rcases List.mem_cons.mp hmem with he | hm
      · exact absurd he.symm (by decide)
      · exact absurd (List.all_eq_true.mp hall _ hm) (by decide)
    · rw [specValidInt_nodash rest hc] at h
      have hall := (Bool.and_eq_true_iff.mp h).2
      exact absurd (List.all_eq_true.mp hall _ hmem) (by decide)

theorem specValid_pyInt {l : List Char} (h : specValidInt l = true) :
    pyInt? l = some (specIntVal l) := by
  cases l with
  | nil => simp [specValidInt] at h
  | cons c rest =>
    by_cases hc : c = '-'
    · subst hc
      rw [specValidInt_dash] at h
      rw [pyInt?_dash, specIntVal_dash]
      unfold digitsVal?
      rw [if_pos h]
      rfl
    · rw [specValidInt_nodash rest hc] at h
      have hcd : c.isDigit := by
        have hall := (Bool.and_eq_true_iff.mp h).2
        exact List.all_eq_true.mp hall c (List.mem_cons_self c rest)
      have hplus : c ≠ '+' := by
        intro he
        subst he
        exact absurd hcd (by decide)
      rw [pyInt?_nosign rest hc hplus, specIntVal_nodash rest hc]
      unfold digitsVal?
      rw [if_pos h]
      rfl

theorem pyValid_not_specValid_pyInt {l : List Char}
    (hpy : pyIsValidInteger l = true) (hspec : ¬ specValidInt l = true) :
    pyInt? l = none := by
  cases l with
  | nil => simp [pyIsValidInteger, List.dropWhile] at hpy
  | cons c rest =>
    by_cases hc : c = '-'
    · subst hc
      rw [specValidInt_dash] at hspec
      rw [pyInt?_dash]
      unfold digitsVal?
      rw [if_neg hspec]
      rfl
    · exfalso
      rw [specValidInt_nodash rest hc] at hspec
      unfold pyIsValidInteger at hpy
      rw [List.dropWhile_cons, if_neg (by simp [hc])] at hpy
      exact hspec hpy

theorem parse_entry_reduce (line r0 c0 v0 : List Char)
    (hpar : line.head? = some '(' ∧ line.getLast? = some ')')
    (hsplit : splitOnComma ((line.drop 1).dropLast) = [r0, c0, v0]) :
    parse_entry line =
      (if '.' ∈ pyStrip r0 ∨ '.' ∈ pyStrip c0 ∨ '.' ∈ pyStrip v0 then
        .error "Matrix entries must be integers only"
      else if !(pyIsValidInteger (pyStrip r0) && pyIsValidInteger (pyStrip c0) &&
          pyIsValidInteger (pyStrip v0)) then
        .error "Invalid integer values in entry"
      else
        match pyInt? (pyStrip r0) with
        | none => .error ("invalid literal for int() with base 10: " ++
            String.mk (pyStrip r0))
        | some ri =>
          match pyInt? (pyStrip c0) with
          | none => .error ("invalid literal for int() with base 10: " ++
              String.mk (pyStrip c0))
          | some ci =>
            match pyInt? (pyStrip v0) with
            | none => .error ("invalid literal for int() with base 10: " ++
                String.mk (pyStrip v0))
            | some vi => .ok (ri, ci, vi)) := by
  unfold parse_entry
  rw [if_pos hpar, hsplit]

theorem conv_err_ne_paren (s : List Char) :
    "invalid literal for int() with base 10: " ++ String.mk s ≠
      "Each entry must be enclosed in parentheses." := by
  intro h
  have h2 := congrArg (fun t => t.data.head?) h
  have h3 : some 'i' = some 'E' := h2
  exact absurd h3 (by decide)

theorem conv_err_ne_arity (s : List Char) :
    "invalid literal for int() with base 10: " ++ String.mk s ≠
      "Each entry must have exactly three parts: row, col, value" := by
  intro h
  have h2 := congrArg (fun t => t.data.head?) h
  have h3 : some 'i' = some 'E' := h2
  exact absurd h3 (by decide)

/-! ### Claim C4 -/

/-- Claim C4: for a line that is parenthesized and splits into exactly
three comma-separated parts, the entry parser fails (with one of the
integer-field errors, never the parenthesis or arity error) whenever
some part, after trimming, is not an optional single leading dash
followed by one or more decimal digits, or contains a dot; when all
three parts are valid signed integer literals it returns the three
parts converted to integers. -/
theorem claim_C4_parse_integer_fields (line r0 c0 v0 : List Char)
    (hpar : line.head? = some '(' ∧ line.getLast? = some ')')
    (hsplit : splitOnComma ((line.drop 1).dropLast) = [r0, c0, v0]) :
    ((¬(specValidInt (pyStrip r0) = true ∧ specValidInt (pyStrip c0) = true ∧
          specValidInt (pyStrip v0) = true) ∨
        '.' ∈ pyStrip r0 ∨ '.' ∈ pyStrip c0 ∨ '.' ∈ pyStrip v0) →
      ∃ e, parse_entry line = .error e ∧
        e ≠ "Each entry must be enclosed in parentheses." ∧
        e ≠ "Each entry must have exactly three parts: row, col, value") ∧
    (specValidInt (pyStrip r0) = true → specValidInt (pyStrip c0) = true →
      specValidInt (pyStrip v0) = true →
      parse_entry line =
        .ok (specIntVal (pyStrip r0), specIntVal (pyStrip c0),
          specIntVal (pyStrip v0))) := by
  constructor
  · intro h
    have hnall : ¬(specValidInt (pyStrip r0) = true ∧
        specValidInt (pyStrip c0) = true ∧ specValidInt (pyStrip v0) = true) := by
      rcases h with h | hd | hd | hd
      · exact h
      · exact fun hall => specValid_no_dot hall.1 hd
      · exact fun hall => specValid_no_dot hall.2.1 hd
      · exact fun hall => specValid_no_dot hall.2.2 hd
    rw [parse_entry_reduce line r0 c0 v0 hpar hsplit]
    by_cases hdot : '.' ∈ pyStrip r0 ∨ '.' ∈ pyStrip c0 ∨ '.' ∈ pyStrip v0
    · rw [if_pos hdot]
      exact ⟨_, rfl, by decide, by decide⟩
    · rw [if_neg hdot]
      by_cases hval : (pyIsValidInteger (pyStrip r0) &&
          pyIsValidInteger (pyStrip c0) && pyIsValidInteger (pyStrip v0)) = true
      · rw [if_neg (by rw [hval]; exact (by decide))]
        have hv12 := Bool.and_eq_true_iff.mp hval
        have hv1 := (Bool.and_eq_true_iff.mp hv12.1).1
        have hv2 := (Bool.and_eq_true_iff.mp hv12.1).2
        have hv3 := hv12.2
        cases hr : pyInt? (pyStrip r0) with
        | none => exact ⟨_, rfl, conv_err_ne_paren _, conv_err_ne_arity _⟩
        | some ri =>
          cases hcc : pyInt? (pyStrip c0) with
          | none => exact ⟨_, rfl, conv_err_ne_paren _, conv_err_ne_arity _⟩
          | some ci =>
            cases hvv : pyInt? (pyStrip v0) with
            | none => exact ⟨_, rfl, conv_err_ne_paren _, conv_err_ne_arity _⟩
            | some vi =>
              exfalso
              rcases not_and_or.mp hnall with hbad | hbad2
              · rw [pyValid_not_specValid_pyInt hv1 hbad] at hr
                exact absurd hr (by simp)
              · rcases not_and_or.mp hbad2 with hbad | hbad
                · rw [pyValid_not_specValid_pyInt hv2 hbad] at hcc
                  exact absurd hcc (by simp)
                · rw [pyValid_not_specValid_pyInt hv3 hbad] at hvv
                  exact absurd hvv (by simp)
      · have hX : (pyIsValidInteger (pyStrip r0) &&
            pyIsValidInteger (pyStrip c0) && pyIsValidInteger (pyStrip v0)) = false := by
          cases hbig : (pyIsValidInteger (pyStrip r0) &&
              pyIsValidInteger (pyStrip c0) && pyIsValidInteger (pyStrip v0))
          · rfl
          · exact absurd hbig hval
        rw [if_pos (show (!(pyIsValidInteger (pyStrip r0) &&
            pyIsValidInteger (pyStrip c0) && pyIsValidInteger (pyStrip v0))) = true
          by rw [hX]; rfl)]
        exact ⟨_, rfl, by decide, by decide⟩
  · intro h1 h2 h3
    rw [parse_entry_reduce line r0 c0 v0 hpar hsplit]
    rw [if_neg (by
      push_neg
      exact ⟨specValid_no_dot h1, specValid_no_dot h2, specValid_no_dot h3⟩)]
    rw [if_neg (by
      rw [specValid_pyValid h1, specValid_pyValid h2, specValid_pyValid h3]
      exact (by decide))]
    rw [specValid_pyInt h1, specValid_pyInt h2, specValid_pyInt h3]

/-- Witness for C4: a successful parse of `(1,-2,3)` and a rejected
parse of `(1,2,3.5)`. -/
theorem claim_C4_parse_integer_fields_witness :
    (parse_entry "(1,-2,3)".data =
      .ok (specIntVal (pyStrip "1".data), specIntVal (pyStrip "-2".data),
        specIntVal (pyStrip "3".data))) ∧
    (∃ e, parse_entry "(1,2,3.5)".data = .error e ∧
      e ≠ "Each entry must be enclosed in parentheses." ∧
      e ≠ "Each entry must have exactly three parts: row, col, value") :=
  ⟨(claim_C4_parse_integer_fields "(1,-2,3)".data "1".data "-2".data "3".data
      (by decide) (by decide)).2 (by decide) (by decide) (by decide),
    (claim_C4_parse_integer_fields "(1,2,3.5)".data "1".data "2".data "3.5".data
      (by decide) (by decide)).1 (by decide)⟩

/-! ### Loader equations and failure lemmas -/

theorem loadCore_nil :
    loadCore [] = .error "File must contain at least two lines for rows and cols" := rfl

theorem loadCore_single (l0 : List Char) :
    loadCore [l0] =
      .error "File must contain at least two lines for rows and cols" := rfl

theorem loadCore_cons2 (l0 l1 : List Char) (rest : List (List Char)) :
    loadCore (l0 :: l1 :: rest) =
      (if pyStartsWith l0 rowsTag && pyStartsWith l1 colsTag then
        match pyInt? (l0.drop 5) with
        | none => .error ("invalid literal for int() with base 10: " ++
            String.mk (l0.drop 5))
        | some r =>
          match pyInt? (l1.drop 5) with
          | none => .error ("invalid literal for int() with base 10: " ++
              String.mk (l1.drop 5))
          | some c => foldE loadStep rest ⟨r, c, []⟩
      else .error "First two lines must define matrix dimensions") := rfl

theorem loadCore_entries {l0 l1 : List Char} {rest : List (List Char)} {R C : Int}
    (hs1 : pyStartsWith l0 rowsTag = true) (hs2 : pyStartsWith l1 colsTag = true)
    (hR : pyInt? (l0.drop 5) = some R) (hC : pyInt? (l1.drop 5) = some C) :
    loadCore (l0 :: l1 :: rest) = foldE loadStep rest ⟨R, C, []⟩ := by
  rw [loadCore_cons2, if_pos (Bool.and_eq_true_iff.mpr ⟨hs1, hs2⟩), hR, hC]

theorem load_header_fail (path : String) (fileLines : List (List Char))
    (h : ¬ ∃ l0 l1 rest,
      (fileLines.map stripWS).filter (fun l => !l.isEmpty) = l0 :: l1 :: rest ∧
      pyStartsWith l0 rowsTag = true ∧ pyStartsWith l1 colsTag = true) :
    ∃ e, load path fileLines = .error e := by
  unfold load
  cases hlines : (fileLines.map stripWS).filter (fun l => !l.isEmpty) with
  | nil =>
    rw [loadCore_nil]
    exact ⟨_, rfl⟩
  | cons l0 tail =>
    cases tail with
    | nil =>
      rw [loadCore_single]
      exact ⟨_, rfl⟩
    | cons l1 rest =>
      rw [loadCore_cons2]
      have hcond : ¬(pyStartsWith l0 rowsTag && pyStartsWith l1 colsTag) = true := by
        intro hcnd
        rcases Bool.and_eq_true_iff.mp hcnd with ⟨h1, h2⟩
        exact h ⟨l0, l1, rest, hlines, h1, h2⟩
      rw [if_neg hcond]
      exact ⟨_, rfl⟩

theorem set_element_err {m : SparseMatrix} {r c : Int} (v : Int)
    (h : ¬ inBounds m r c) : ∃ e, set_element m r c v = .error e := by
  have h' : ¬(0 ≤ r ∧ r < m.rows ∧ 0 ≤ c ∧ c < m.cols) := h
  unfold set_element
  rw [if_neg h']
  exact ⟨_, rfl⟩

theorem foldE_error_inv {α : Type} {P : SparseMatrix → Prop}
    {f : SparseMatrix → α → Except String SparseMatrix} {x : α}
    (hkeep : ∀ m y m', P m → f m y = .ok m' → P m')
    (hfail : ∀ m, P m → ∃ e, f m x = .error e) :
    ∀ (l : List α), x ∈ l → ∀ (m0 : SparseMatrix), P m0 →
      ∃ e, foldE f l m0 = .error e := by
  intro l
  induction l with
  | nil =>
    intro h
    simp at h
  | cons y ys ih =>
    intro hx m0 hp
    rcases List.mem_cons.mp hx with rfl | hx
    · rcases hfail m0 hp with ⟨e, he⟩
      exact ⟨e, by rw [foldE_cons, he]⟩
    · cases hy : f m0 y with
      | ok m1 =>
        rcases ih hx m1 (hkeep m0 y m1 hp hy) with ⟨e, he⟩
        exact ⟨e, by rw [foldE_cons, hy]; exact he⟩
      | error e =>
        exact ⟨e, by rw [foldE_cons, hy]⟩

theorem loadStep_dims {R C : Int} :
    ∀ (m : SparseMatrix) (line : List Char) (m' : SparseMatrix),
      (m.rows = R ∧ m.cols = C) → loadStep m line = .ok m' →
      (m'.rows = R ∧ m'.cols = C) := by
  intro m line m' hp h
  unfold loadStep at h
  cases hp2 : parse_entry line with
  | ok rcv =>
    rw [hp2] at h
    have := set_element_dims h
    exact ⟨this.1.trans hp.1, this.2.trans hp.2⟩
  | error e =>
    rw [hp2] at h
    exact absurd h (by simp)

theorem loadStep_fails {R C : Int} {line : List Char}
    (hbad : (∃ e0, parse_entry line = .error e0) ∨
      (∃ r c v, parse_entry line = .ok (r, c, v) ∧
        ¬(0 ≤ r ∧ r < R ∧ 0 ≤ c ∧ c < C))) :
    ∀ m : SparseMatrix, m.rows = R → m.cols = C →
      ∃ e, loadStep m line = .error e := by
  intro m hr hc
  unfold loadStep
  rcases hbad with ⟨e0, he⟩ | ⟨r, c, v, hok, hnb⟩
  · rw [he]
    exact ⟨e0, rfl⟩
  · rw [hok]
    apply set_element_err
    intro hib
    have hib' : 0 ≤ r ∧ r < m.rows ∧ 0 ≤ c ∧ c < m.cols := hib
    rw [hr, hc] at hib'
    exact hnb hib'

/-! ### Claim C9 -/

/-- Claim C9: `load` fails unless, after discarding blank lines, the
stripped file has at least two lines, the first beginning `rows=` and
the second beginning `cols=`, in that fixed order; in particular any
file whose first non-blank line is `cols=3` fails. -/
theorem claim_C9_header_order (path : String) (fileLines : List (List Char)) :
    ((¬ ∃ l0 l1 rest,
        (fileLines.map stripWS).filter (fun l => !l.isEmpty) = l0 :: l1 :: rest ∧
        pyStartsWith l0 rowsTag = true ∧ pyStartsWith l1 colsTag = true) →
      ∃ e, load path fileLines = .error e) ∧
    (∀ rest2 : List (List Char),
      ∃ e, load path ("cols=3".data :: rest2) = .error e) := by
  constructor
  · exact load_header_fail path fileLines
  · intro rest2
    apply load_header_fail
    rintro ⟨l0, l1, rest, heq, hs1, hs2⟩
    rw [List.map_cons, List.filter_cons, if_pos (by decide)] at heq
    injection heq with h1 h2
    rw [← h1] at hs1
    exact absurd hs1 (by decide)

/-- Witness for C9: a file with the headers in the wrong order, and an
empty file. -/
theorem claim_C9_header_order_witness :
    (∃ e, load "f.txt" ([] : List (List Char)) = .error e) ∧
    (∃ e, load "f.txt" ["cols=3".data, "rows=2".data] = .error e) :=
  ⟨(claim_C9_header_order "f.txt" []).1 (by rintro ⟨l0, l1, rest, heq, _, _⟩; simp at heq),
    (claim_C9_header_order "f.txt" []).2 ["rows=2".data]⟩

/-! ### Claim C5 -/

/-- Claim C5: every loader failure is surfaced as one error wrapping
the file path together with the underlying cause, and whenever any
entry line fails to parse or carries an out-of-bounds key, the load
aborts with such a wrapped error and never returns a matrix. -/
theorem claim_C5_load_abort (path : String) (fileLines : List (List Char)) :
    (∀ e, loadCore ((fileLines.map stripWS).filter (fun l => !l.isEmpty)) =
        .error e →
      load path fileLines =
        .error ("Error loading matrix from file " ++ path ++ ": " ++ e)) ∧
    (∀ (l0 l1 : List Char) (rest : List (List Char)) (R C : Int),
      (fileLines.map stripWS).filter (fun l => !l.isEmpty) = l0 :: l1 :: rest →
      pyStartsWith l0 rowsTag = true → pyStartsWith l1 colsTag = true →
      pyInt? (l0.drop 5) = some R → pyInt? (l1.drop 5) = some C →
      (∃ line ∈ rest, (∃ e0, parse_entry line = .error e0) ∨
        (∃ r c v, parse_entry line = .ok (r, c, v) ∧
          ¬(0 ≤ r ∧ r < R ∧ 0 ≤ c ∧ c < C))) →
      (∃ e, load path fileLines =
        .error ("Error loading matrix from file " ++ path ++ ": " ++ e)) ∧
      (∀ m, load path fileLines ≠ .ok m)) := by
  constructor
  · intro e he
    unfold load
    rw [he]
  · intro l0 l1 rest R C heq hs1 hs2 hR hC hbadline
    rcases hbadline with ⟨line, hline, hbad⟩
    have hfold : ∃ e, foldE loadStep rest ⟨R, C, []⟩ = .error e :=
      foldE_error_inv loadStep_dims
        (fun m hp => loadStep_fails hbad m hp.1 hp.2) rest hline
        ⟨R, C, []⟩ ⟨rfl, rfl⟩
    rcases hfold with ⟨e, he⟩
    have hcoree : loadCore ((fileLines.map stripWS).filter (fun l => !l.isEmpty)) =
        .error e := by
      rw [heq, loadCore_entries hs1 hs2 hR hC]
      exact he
    constructor
    · exact ⟨e, by unfold load; rw [hcoree]⟩
    · intro m hm
      rw [load_ok_iff] at hm
      rw [hcoree] at hm
      exact absurd hm (by simp)

/-- Witness for C5: a file whose entry line is out of bounds for the
declared dimensions, and a loader failure on an empty file. -/
theorem claim_C5_load_abort_witness :
    (load "f.txt" ([] : List (List Char)) =
      .error ("Error loading matrix from file " ++ "f.txt" ++ ": " ++
        "File must contain at least two lines for rows and cols")) ∧
    ((∃ e, load "f.txt" ["rows=2".data, "cols=2".data, "(9, 9, 9)".data] =
        .error ("Error loading matrix from file " ++ "f.txt" ++ ": " ++ e)) ∧
      (∀ m, load "f.txt" ["rows=2".data, "cols=2".data, "(9, 9, 9)".data] ≠ .ok m)) :=
  ⟨(claim_C5_load_abort "f.txt" []).1
      "File must contain at least two lines for rows and cols" rfl,
    (claim_C5_load_abort "f.txt"
        ["rows=2".data, "cols=2".data, "(9, 9, 9)".data]).2
      "rows=2".data "cols=2".data ["(9,9,9)".data] 2 2 rfl rfl rfl rfl rfl
      ⟨"(9,9,9)".data, List.mem_singleton.mpr rfl,
        Or.inr ⟨9, 9, 9, rfl, by decide⟩⟩⟩

/-! ### Decimal rendering round trip -/

theorem natDigits_eq_small {n : Nat} (h : n < 10) :
    natDigits n = [Char.ofNat (48 + n)] := by
  unfold natDigits
  rw [dif_pos h]

theorem natDigits_eq_big {n : Nat} (h : ¬ n < 10) :
    natDigits n = natDigits (n / 10) ++ [Char.ofNat (48 + n % 10)] := by
  conv_lhs => rw [natDigits]
  rw [dif_neg h]

theorem digitsToNat_append_digit (xs : List Char) (c : Char) :
    digitsToNat (xs ++ [c]) = digitsToNat xs * 10 + (c.toNat - 48) := by
  unfold digitsToNat
  rw [List.foldl_append]
  rfl

theorem digitChar_isDigit {d : Nat} (h : d < 10) :
    (Char.ofNat (48 + d)).isDigit = true ∧ (Char.ofNat (48 + d)).toNat - 48 = d := by
  interval_cases d <;> exact ⟨by decide, by decide⟩

theorem natDigits_spec (n : Nat) :
    natDigits n ≠ [] ∧ (natDigits n).all Char.isDigit = true ∧
      digitsToNat (natDigits n) = n := by
  induction n using Nat.strong_induction_on with
  | _ n ih =>
    by_cases h : n < 10
    · rw [natDigits_eq_small h]
      refine ⟨by simp, ?_, ?_⟩
      · simp only [List.all_cons, List.all_nil, Bool.and_true]
        exact (digitChar_isDigit h).1
      · show 0 * 10 + ((Char.ofNat (48 + n)).toNat - 48) = n
        have := (digitChar_isDigit h).2
        omega
    · rw [natDigits_eq_big h]
      obtain ⟨hne, hall, hval⟩ := ih (n / 10) (Nat.div_lt_self (by omega) (by omega))
      have hd : n % 10 < 10 := Nat.mod_lt _ (by omega)
      refine ⟨by simp, ?_, ?_⟩
      · rw [List.all_append, hall]
        simp only [List.all_cons, List.all_nil, Bool.and_true, Bool.true_and]
        exact (digitChar_isDigit hd).1
      · rw [digitsToNat_append_digit, hval]
        have := (digitChar_isDigit hd).2
        omega

theorem intToStr_nonneg {n : Int} (h : 0 ≤ n) :
    intToStr n = natDigits n.toNat := by
  unfold intToStr
  rw [if_neg (by omega)]

theorem intToStr_neg {n : Int} (h : n < 0) :
    intToStr n = '-' :: natDigits (-n).toNat := by
  unfold intToStr
  rw [if_pos h]

theorem digit_ne_dash {c : Char} (h : c.isDigit = true) : c ≠ '-' := by
  intro he
  subst he
  exact absurd h (by decide)

theorem specValid_intToStr (n : Int) : specValidInt (intToStr n) = true := by
  by_cases h : n < 0
  · rw [intToStr_neg h, specValidInt_dash]
    obtain ⟨hne, hall, _⟩ := natDigits_spec (-n).toNat
    rw [hall]
    simp [hne]
  · rw [intToStr_nonneg (by omega)]
    obtain ⟨hne, hall, _⟩ := natDigits_spec n.toNat
    obtain ⟨c, cs, hc⟩ := List.exists_cons_of_ne_nil hne
    have hcd : c.isDigit = true := by
      rw [hc] at hall
      exact List.all_eq_true.mp hall c (List.mem_cons_self c cs)
    rw [hc, specValidInt_nodash cs (digit_ne_dash hcd), ← hc, hall]
    rw [hc]
    simp

theorem specIntVal_intToStr (n : Int) : specIntVal (intToStr n) = n := by
  by_cases h : n < 0
  · rw [intToStr_neg h, specIntVal_dash]
    obtain ⟨_, _, hval⟩ := natDigits_spec (-n).toNat
    rw [hval]
    omega
  · rw [intToStr_nonneg (by omega)]
    obtain ⟨hne, hall, hval⟩ := natDigits_spec n.toNat
    obtain ⟨c, cs, hc⟩ := List.exists_cons_of_ne_nil hne
    have hcd : c.isDigit = true := by
      rw [hc] at hall
      exact List.all_eq_true.mp hall c (List.mem_cons_self c cs)
    rw [hc, specIntVal_nodash cs (digit_ne_dash hcd), ← hc, hval]
    omega

theorem pyInt?_intToStr (n : Int) : pyInt? (intToStr n) = some n := by
  rw [specValid_pyInt (specValid_intToStr n), specIntVal_intToStr]

theorem intToStr_chars {n : Int} {c : Char} (h : c ∈ intToStr n) :
    c = '-' ∨ c.isDigit = true := by
  by_cases hn : n < 0
  · rw [intToStr_neg hn] at h
    rcases List.mem_cons.mp h with rfl | h
    · exact Or.inl rfl
    · obtain ⟨_, hall, _⟩ := natDigits_spec (-n).toNat
      exact Or.inr (List.all_eq_true.mp hall c h)
  · rw [intToStr_nonneg (by omega)] at h
    obtain ⟨_, hall, _⟩ := natDigits_spec n.toNat
    exact Or.inr (List.all_eq_true.mp hall c h)

theorem digit_not_ws {c : Char} (hdig : c.isDigit = true) : pyIsSpace c = false := by
  cases hsp : pyIsSpace c
  · rfl
  · exfalso
    simp only [pyIsSpace, Bool.or_eq_true, beq_iff_eq] at hsp
    rcases hsp with ((((h | h) | h) | h) | h) | h <;>
      (subst h; exact absurd hdig (by decide))

theorem digit_ne_comma {c : Char} (h : c.isDigit = true) : c ≠ ',' := by
  intro he
  subst he
  exact absurd h (by decide)

theorem intToStr_no_ws {n : Int} {c : Char} (h : c ∈ intToStr n) :
    pyIsSpace c = false := by
  rcases intToStr_chars h with rfl | hd
  · decide
  · exact digit_not_ws hd

theorem intToStr_no_comma {n : Int} {c : Char} (h : c ∈ intToStr n) : c ≠ ',' := by
  rcases intToStr_chars h with rfl | hd
  · decide
  · exact digit_ne_comma hd

/-! ### Whitespace and splitting lemmas -/

theorem stripWS_of_no_ws {l : List Char} (h : ∀ c ∈ l, pyIsSpace c = false) :
    stripWS l = l := by
  unfold stripWS
  apply List.filter_eq_self.mpr
  intro a ha
  rw [h a ha]
  rfl

theorem dropWhile_no_ws {l : List Char} (h : ∀ c ∈ l, pyIsSpace c = false) :
    l.dropWhile pyIsSpace = l := by
  cases l with
  | nil => rfl
  | cons c rest =>
    rw [List.dropWhile_cons, if_neg (by rw [h c (List.mem_cons_self c rest)]; simp)]

theorem pyStrip_of_no_ws {l : List Char} (h : ∀ c ∈ l, pyIsSpace c = false) :
    pyStrip l = l := by
  unfold pyStrip
  rw [dropWhile_no_ws h,
    dropWhile_no_ws (fun c hc => h c (List.mem_reverse.mp hc)),
    List.reverse_reverse]

theorem splitOnComma_cons_comma (rest : List Char) :
    splitOnComma (',' :: rest) = [] :: splitOnComma rest := by
  conv_lhs => unfold splitOnComma
  rw [if_pos rfl]

theorem splitOnComma_cons_other {c : Char} (rest : List Char) (h : c ≠ ',') :
    splitOnComma (c :: rest) =
      (match splitOnComma rest with
      | [] => [[c]]
      | g :: gs => (c :: g) :: gs) := by
  conv_lhs => unfold splitOnComma
  rw [if_neg h]

theorem splitOnComma_append {A : List Char} (hA : ',' ∉ A) (rest : List Char) :
    splitOnComma (A ++ ',' :: rest) = A :: splitOnComma rest := by
  induction A with
  | nil => rw [List.nil_append, splitOnComma_cons_comma]
  | cons a A ih =>
    have ha : a ≠ ',' := fun he => hA (he ▸ List.mem_cons_self a A)
    rw [List.cons_append, splitOnComma_cons_other _ ha,
      ih (fun hm => hA (List.mem_cons_of_mem a hm))]

theorem splitOnComma_no_comma {A : List Char} (hA : ',' ∉ A) :
    splitOnComma A = [A] := by
  induction A with
  | nil => rfl
  | cons a A ih =>
    have ha : a ≠ ',' := fun he => hA (he ▸ List.mem_cons_self a A)
    rw [splitOnComma_cons_other _ ha, ih (fun hm => hA (List.mem_cons_of_mem a hm))]

theorem pyStartsWith_append (pre rest : List Char) :
    pyStartsWith (pre ++ rest) pre = true := by
  induction pre with
  | nil => cases rest <;> rfl
  | cons p ps ih =>
    rw [List.cons_append]
    show (p == p && pyStartsWith (ps ++ rest) ps) = true
    rw [ih]
    simp

/-! ### The saved entry lines parse back -/

theorem parse_entry_ok_of_valid (line r0 c0 v0 : List Char)
    (hpar : line.head? = some '(' ∧ line.getLast? = some ')')
    (hsplit : splitOnComma ((line.drop 1).dropLast) = [r0, c0, v0])
    (h1 : specValidInt (pyStrip r0) = true) (h2 : specValidInt (pyStrip c0) = true)
    (h3 : specValidInt (pyStrip v0) = true) :
    parse_entry line =
      .ok (specIntVal (pyStrip r0), specIntVal (pyStrip c0),
        specIntVal (pyStrip v0)) := by
  rw [parse_entry_reduce line r0 c0 v0 hpar hsplit]
  rw [if_neg (by
    push_neg
    exact ⟨specValid_no_dot h1, specValid_no_dot h2, specValid_no_dot h3⟩)]
  rw [if_neg (by
    rw [specValid_pyValid h1, specValid_pyValid h2, specValid_pyValid h3]
    exact (by decide))]
  rw [specValid_pyInt h1, specValid_pyInt h2, specValid_pyInt h3]

theorem stripWS_append (a b : List Char) :
    stripWS (a ++ b) = stripWS a ++ stripWS b := by
  unfold stripWS
  exact List.filter_append _ _

theorem stripWS_intToStr (n : Int) : stripWS (intToStr n) = intToStr n :=
  stripWS_of_no_ws (fun _ hc => intToStr_no_ws hc)

theorem pyStrip_intToStr (n : Int) : pyStrip (intToStr n) = intToStr n :=
  pyStrip_of_no_ws (fun _ hc => intToStr_no_ws hc)

theorem stripWS_formatEntry (p : Key × Int) :
    stripWS (formatEntry p) =
      '(' :: ((intToStr p.1.1 ++ ',' :: (intToStr p.1.2 ++ ',' :: intToStr p.2))
        ++ [')']) := by
  unfold formatEntry
  simp only [stripWS_append, stripWS_intToStr]
  have hop : stripWS ['('] = ['('] := rfl
  have hcs : stripWS [',', ' '] = [','] := rfl
  have hcl : stripWS [')'] = [')'] := rfl
  rw [hop, hcs, hcl]
  simp [List.append_assoc]

theorem parse_entry_stripped_format (p : Key × Int) :
    parse_entry (stripWS (formatEntry p)) = .ok (p.1.1, p.1.2, p.2) := by
  rw [stripWS_formatEntry]
  have hpar : (('(' : Char) ::
      ((intToStr p.1.1 ++ ',' :: (intToStr p.1.2 ++ ',' :: intToStr p.2))
        ++ [')'])).head? = some '(' ∧
      (('(' : Char) ::
      ((intToStr p.1.1 ++ ',' :: (intToStr p.1.2 ++ ',' :: intToStr p.2))
        ++ [')'])).getLast? = some ')' := by
    refine ⟨rfl, ?_⟩
    rw [← List.cons_append]
    exact List.getLast?_concat _
  have hsplit : splitOnComma
      (((('(' : Char) ::
        ((intToStr p.1.1 ++ ',' :: (intToStr p.1.2 ++ ',' :: intToStr p.2))
          ++ [')'])).drop 1).dropLast) =
      [intToStr p.1.1, intToStr p.1.2, intToStr p.2] := by
    show splitOnComma
      (((intToStr p.1.1 ++ ',' :: (intToStr p.1.2 ++ ',' :: intToStr p.2))
        ++ [')']).dropLast) = _
    rw [List.dropLast_concat]
    rw [splitOnComma_append (fun hm => intToStr_no_comma hm rfl)]
    rw [splitOnComma_append (fun hm => intToStr_no_comma hm rfl)]
    rw [splitOnComma_no_comma (fun hm => intToStr_no_comma hm rfl)]
  rw [parse_entry_ok_of_valid _ _ _ _ hpar hsplit
    (by rw [pyStrip_intToStr]; exact specValid_intToStr _)
    (by rw [pyStrip_intToStr]; exact specValid_intToStr _)
    (by rw [pyStrip_intToStr]; exact specValid_intToStr _)]
  rw [pyStrip_intToStr, pyStrip_intToStr, pyStrip_intToStr,
    specIntVal_intToStr, specIntVal_intToStr, specIntVal_intToStr]

/-! ### Round trip -/

theorem save_lines_stripped (m : SparseMatrix) :
    ((save_lines m).map stripWS).filter (fun l => !l.isEmpty) =
      (rowsTag ++ intToStr m.rows) :: (colsTag ++ intToStr m.cols) ::
        (sortedEntries m.elements).map (fun p => stripWS (formatEntry p)) := by
  unfold save_lines
  rw [List.map_cons, List.map_cons, List.filter_cons, List.filter_cons]
  have hs0 : stripWS (rowsTag ++ intToStr m.rows) = rowsTag ++ intToStr m.rows := by
    rw [stripWS_append, stripWS_intToStr]
    have : stripWS rowsTag = rowsTag := rfl
    rw [this]
  have hs1 : stripWS (colsTag ++ intToStr m.cols) = colsTag ++ intToStr m.cols := by
    rw [stripWS_append, stripWS_intToStr]
    have : stripWS colsTag = colsTag := rfl
    rw [this]
  rw [hs0, hs1]
  rw [if_pos (show (!(rowsTag ++ intToStr m.rows).isEmpty) = true from rfl)]
  rw [if_pos (show (!(colsTag ++ intToStr m.cols).isEmpty) = true from rfl)]
  rw [List.map_map]
  congr 2
  have hcomp : List.map (stripWS ∘ formatEntry) (sortedEntries m.elements) =
      List.map (fun p => stripWS (formatEntry p)) (sortedEntries m.elements) := rfl
  rw [hcomp, List.filter_eq_self]
  intro a ha
  rcases List.mem_map.mp ha with ⟨p, _, he⟩
  subst he
  show (!(stripWS (formatEntry p)).isEmpty) = true
  rw [stripWS_formatEntry]
  rfl

theorem foldE_congr_map {α β : Type} (φ : α → β)
    (f : SparseMatrix → β → Except String SparseMatrix)
    (g : SparseMatrix → α → Except String SparseMatrix)
    (h : ∀ m x, f m (φ x) = g m x) :
    ∀ (l : List α) (m0 : SparseMatrix), foldE f (l.map φ) m0 = foldE g l m0 := by
  intro l
  induction l with
  | nil => intro m0; rfl
  | cons x xs ih =>
    intro m0
    rw [List.map_cons, foldE_cons, foldE_cons, h]
    cases g m0 x with
    | ok m1 => exact ih m1
    | error e => rfl

theorem loadStep_format (p : Key × Int) (m : SparseMatrix) :
    loadStep m (stripWS (formatEntry p)) = set_element m p.1.1 p.1.2 p.2 := by
  unfold loadStep
  rw [parse_entry_stripped_format]

theorem perm_of_get_eq {d1 d2 : List (Key × Int)}
    (hnd1 : (dictKeys d1).Nodup) (h11 : ∀ p ∈ d1, p.2 ≠ 0)
    (hnd2 : (dictKeys d2).Nodup) (h12 : ∀ p ∈ d2, p.2 ≠ 0)
    (hget : ∀ k, dictGet d1 k = dictGet d2 k) : d1.Perm d2 := by
  have hndf1 : d1.Nodup := List.Nodup.of_map Prod.fst hnd1
  have hndf2 : d2.Nodup := List.Nodup.of_map Prod.fst hnd2
  rw [List.perm_ext_iff_of_nodup hndf1 hndf2]
  intro p
  constructor
  · intro hp
    have hv : dictGet d1 p.1 = p.2 :=
      dictGet_eq_of_mem hnd1 (show (p.1, p.2) ∈ d1 from Prod.mk.eta ▸ hp)
    have hv2 : dictGet d2 p.1 = p.2 := by rw [← hget]; exact hv
    have hne : dictGet d2 p.1 ≠ 0 := by rw [hv2]; exact h11 p hp
    have hmem := mem_of_dictGet_ne hne
    rw [hv2] at hmem
    rwa [Prod.mk.eta] at hmem
  · intro hp
    have hv : dictGet d2 p.1 = p.2 :=
      dictGet_eq_of_mem hnd2 (show (p.1, p.2) ∈ d2 from Prod.mk.eta ▸ hp)
    have hv2 : dictGet d1 p.1 = p.2 := by rw [hget]; exact hv
    have hne : dictGet d1 p.1 ≠ 0 := by rw [hv2]; exact h12 p hp
    have hmem := mem_of_dictGet_ne hne
    rw [hv2] at hmem
    rwa [Prod.mk.eta] at hmem

/-! ### Claim C8 -/

/-- Claim C8: for every well-formed matrix, loading the text produced
by save succeeds and yields a matrix with the same rows, cols, and the
same entry mapping (equal as a key-value mapping, stated as a
permutation of the entry lists). -/
theorem claim_C8_round_trip (path : String) (m : SparseMatrix) (hwf : WF m) :
    ∃ m', load path (save_lines m) = .ok m' ∧
      m'.rows = m.rows ∧ m'.cols = m.cols ∧ m'.elements.Perm m.elements := by
  have hperm : List.Perm (sortedEntries m.elements) m.elements :=
    List.perm_insertionSort entryLe m.elements
  have hnd_es : (dictKeys (sortedEntries m.elements)).Nodup := by
    unfold dictKeys
    exact hwf.1.perm (hperm.symm.map Prod.fst)
  have hI2_es : ∀ p ∈ sortedEntries m.elements,
      inBounds (⟨m.rows, m.cols, []⟩ : SparseMatrix) p.1.1 p.1.2 := by
    intro p hp
    exact hwf.2.2 p (hperm.mem_iff.mp hp)
  rcases foldE_set_fresh (fun p => p.2) (sortedEntries m.elements)
      ⟨m.rows, m.cols, []⟩ hnd_es hI2_es
    with ⟨m', hfold, hr, hc, hget, hout⟩
  have hwm' : WF m' :=
    foldE_preserve (fun _ _ _ hw hs => set_element_WF hw hs) (WF_empty _ _) hfold
  have hR : pyInt? ((rowsTag ++ intToStr m.rows).drop 5) = some m.rows :=
    pyInt?_intToStr m.rows
  have hC : pyInt? ((colsTag ++ intToStr m.cols).drop 5) = some m.cols :=
    pyInt?_intToStr m.cols
  have hcore : loadCore (((save_lines m).map stripWS).filter (fun l => !l.isEmpty)) =
      .ok m' := by
    rw [save_lines_stripped m,
      loadCore_entries (pyStartsWith_append rowsTag (intToStr m.rows))
        (pyStartsWith_append colsTag (intToStr m.cols)) hR hC,
      foldE_congr_map (fun p => stripWS (formatEntry p)) loadStep
        (fun m2 p => set_element m2 p.1.1 p.1.2 p.2)
        (fun m2 p => loadStep_format p m2)]
    exact hfold
  refine ⟨m', load_ok_iff.mpr hcore, hr, hc, ?_⟩
  have hgetall : ∀ k : Key, dictGet m'.elements k = dictGet m.elements k := by
    intro k
    by_cases hk : k ∈ dictKeys (sortedEntries m.elements)
    · have hp := dictGet_mem_of_mem_keys hk
      have h1 : get_element m' k.1 k.2 = dictGet (sortedEntries m.elements) k :=
        hget (k, dictGet (sortedEntries m.elements) k) hp
      have h2 : dictGet m.elements k = dictGet (sortedEntries m.elements) k :=
        dictGet_eq_of_mem hwf.1 (hperm.mem_iff.mp hp)
      have h3 : dictGet m'.elements k = get_element m' k.1 k.2 := by
        unfold get_element
        rw [Prod.mk.eta]
      rw [h3, h1, h2]
    · have h1 : get_element m' k.1 k.2 = 0 := by
        rw [hout k.1 k.2 (by rw [Prod.mk.eta]; exact hk)]
        rfl
      have h2 : dictGet m.elements k = 0 := by
        apply dictGet_of_not_mem
        intro hm2
        apply hk
        unfold dictKeys at hm2 ⊢
        exact (hperm.map Prod.fst).mem_iff.mpr hm2
      have h3 : dictGet m'.elements k = get_element m' k.1 k.2 := by
        unfold get_element
        rw [Prod.mk.eta]
      rw [h3, h1, h2]
  exact perm_of_get_eq hwm'.1 hwm'.2.1 hwf.1 hwf.2.1 hgetall

/-- Witness for C8 at a concrete matrix with a negative value and
unsorted insertion order. -/
theorem claim_C8_round_trip_witness :
    WF (⟨3, 4, [((2, 1), -35), ((0, 3), 7)]⟩ : SparseMatrix) ∧
    (∃ m', load "g.txt" (save_lines ⟨3, 4, [((2, 1), -35), ((0, 3), 7)]⟩) = .ok m' ∧
      m'.rows = 3 ∧ m'.cols = 4 ∧
      m'.elements.Perm [((2, 1), -35), ((0, 3), 7)]) :=
  ⟨by decide,
    claim_C8_round_trip "g.txt" ⟨3, 4, [((2, 1), -35), ((0, 3), 7)]⟩ (by decide)⟩
